import Mathlib

/-!
Verification of the bounds-tracking / morph state-machine core of a DOM
templating runtime (`packages/htmlbars-runtime/lib/morph.ts`).

The DOM is modelled as a finite association list from element ids to ordered
lists of child node ids, together with the set of node ids that are comment
nodes and a fresh-id counter.  Node and element ids are natural numbers.
Stateful TypeScript methods become Lean functions that take and return the
DOM state explicitly.  `null` node references become `Option Nat`.

The DOM mutation helper (`DOMHelper`, from `./dom`) and the template
evaluation engine (`Template.evaluate` / `RenderResult`, from `./template`
and `./render`) are external collaborators whose code is not part of the
source under verification; their operations are modelled from the spec's
interface contracts (standard DOM `insertBefore` / `removeChild` /
`createComment` semantics, and an evaluator that inserts the produced nodes
before the given anchor).
-/

namespace Morph

/-- A DOM state: element ids mapped to their ordered child node lists, the
set of node ids created as comment nodes, and a counter supplying fresh
node ids. -/
structure DOM where
  elems : List (Nat × List Nat)
  comments : List Nat
  nextId : Nat
deriving DecidableEq, Repr

namespace DOM

/-- Children of element `e` (empty when `e` is not in the document). -/
def childrenOf (d : DOM) (e : Nat) : List Nat :=
  (d.elems.lookup e).getD []

/-- The element `e` exists in the document. -/
def hasElem (d : DOM) (e : Nat) : Prop :=
  (d.elems.lookup e).isSome

instance (d : DOM) (e : Nat) : Decidable (d.hasElem e) := by
  unfold hasElem; infer_instance

/-- Replace the child list of element `e`. -/
def setChildren (d : DOM) (e : Nat) (cs : List Nat) : DOM :=
  { d with elems := d.elems.map (fun p => if p.1 = e then (e, cs) else p) }

/-- Modelled from the spec: the parent element of node `n` (the element whose
child list contains it), `none` when detached.  Stands in for the DOM
`node.parentNode` link, which the source consumes but does not define. -/
def parentOf (d : DOM) (n : Nat) : Option Nat :=
  (d.elems.find? (fun p => p.2.contains n)).map (·.1)

/-- The next element of `cs` after the first occurrence of `n`. -/
def nextIn (n : Nat) (cs : List Nat) : Option Nat :=
  ((cs.dropWhile (· ≠ n)).drop 1).head?

/-- Modelled from the spec: the DOM `node.nextSibling` link, which the source
consumes but does not define: the child immediately after `n` in its
parent's child list (`none` when `n` is last or detached). -/
def nextSibling (d : DOM) (n : Nat) : Option Nat :=
  match d.parentOf n with
  | none => none
  | some e => nextIn n (d.childrenOf e)

/-- Modelled from the spec: DOM `parent.removeChild(node)`; defined here for
the cases the source reaches, where `n` is a child of `e`. -/
def removeChild (d : DOM) (e : Nat) (n : Nat) : DOM :=
  d.setChildren e ((d.childrenOf e).erase n)

/-- Remove node `n` from every child list (a node occurs at most once in a
well-formed document, so this is the removal step of DOM insertion). -/
def removeEverywhere (d : DOM) (n : Nat) : DOM :=
  { d with elems := d.elems.map (fun p => (p.1, p.2.erase n)) }

/-- Modelled from the spec: `comment.parentNode.removeChild(comment)` as used
by `Empty.didInsertContent`; removes `n` from its parent's child list. -/
def removeFromParent (d : DOM) (n : Nat) : DOM :=
  match d.parentOf n with
  | none => d
  | some e => d.removeChild e n

/-- Insert `n` into the list `cs` immediately before the first occurrence of
`ref` (at the end when `ref` is `none` or absent). -/
def insBefore (n : Nat) (ref : Option Nat) (cs : List Nat) : List Nat :=
  match ref with
  | none => cs ++ [n]
  | some r => cs.takeWhile (· ≠ r) ++ n :: cs.dropWhile (· ≠ r)

/-- Modelled from the spec: `dom.insertBefore(parent, node, referenceOrNull)`
with standard DOM semantics: the node is first removed from wherever it
currently lives, then inserted into `parent`'s child list immediately
before `ref` (appended when `ref` is null); inserting a node before itself
leaves it in place. -/
def insertBefore (d : DOM) (e : Nat) (n : Nat) (ref : Option Nat) : DOM :=
  let ref' := if ref = some n then d.nextSibling n else ref
  let d1 := d.removeEverywhere n
  d1.setChildren e (insBefore n ref' (d1.childrenOf e))

/-- Modelled from the spec: `dom.createComment(text)`: returns a fresh,
detached comment node. -/
def createComment (d : DOM) : DOM × Nat :=
  ({ d with comments := d.comments ++ [d.nextId], nextId := d.nextId + 1 },
   d.nextId)

/-- Every node id occurring in the document is below the fresh-id counter. -/
def Fresh (d : DOM) : Prop :=
  ∀ p ∈ d.elems, ∀ x ∈ p.2, x < d.nextId

instance (d : DOM) : Decidable d.Fresh := by
  unfold Fresh; infer_instance

end DOM

/-- A value of the `Bounds` interface: a parent element and first/last node
references (both null or both non-null).  `ConcreteBounds` stores exactly
these three fields; `SingleNodeBounds parent n` is the special case
`first = last = n`. -/
structure Bounds where
  parentNode : Nat
  first : Option Nat
  last : Option Nat
deriving DecidableEq, Repr

/-- ConcreteBounds constructor. -/
def ConcreteBounds (parent : Nat) (first : Option Nat) (last : Option Nat) : Bounds :=
  ⟨parent, first, last⟩

/-- SingleNodeBounds constructor. -/
def SingleNodeBounds (parent : Nat) (n : Nat) : Bounds :=
  ⟨parent, some n, some n⟩

namespace Bounds

/-- Accessor parentElement(). -/
def parentElement (b : Bounds) : Nat := b.parentNode

/-- Accessor firstNode(). -/
def firstNode (b : Bounds) : Option Nat := b.first

/-- Accessor lastNode(). -/
def lastNode (b : Bounds) : Option Nat := b.last

end Bounds

/-- The walk of `clear`'s while-loop along the suffix of the parent's child
list that starts at `firstNode()`: each visited node has its (pre-removal)
next sibling recorded, is removed, and the loop stops after removing
`last`, returning that recorded sibling; if the suffix ends before `last`
is met, the walk removed everything and returns `none`.  The pair returned
is (nodes removed in order, returned next sibling). -/
def walkClear (last : Nat) : List Nat → List Nat × Option Nat
  | [] => ([], none)
  | n :: rest =>
    if n = last then ([n], rest.head?)
    else (n :: (walkClear last rest).1, (walkClear last rest).2)

/-- Remove each node of `ns` in turn from element `e`'s child list. -/
def removeAllFrom (d : DOM) (e : Nat) (ns : List Nat) : DOM :=
  ns.foldl (fun acc n => acc.removeChild e n) d

/-- Embedding of `clear(bounds)` (morph.ts lines 343-358): walk from
`firstNode()` via sibling links, removing each node from `parentElement()`;
after removing `lastNode()` return the sibling that followed it, and when
the sibling chain is exhausted first return null.  Defined for the states
the source reaches: `firstNode()` is a child of `parentElement()` (or null,
in which case the loop body never runs). -/
def clear (d : DOM) (b : Bounds) : DOM × Option Nat :=
  match b.firstNode with
  | none => (d, none)
  | some f =>
    let suffix := (d.childrenOf b.parentElement).dropWhile (· ≠ f)
    let wr : List Nat × Option Nat :=
      match b.lastNode with
      | some l => walkClear l suffix
      | none => (suffix, none)
    (removeAllFrom d b.parentElement wr.1, wr.2)

/-- Embedding of `clearWithComment(bounds, dom)` (morph.ts lines 316-322):
clear the bounds, create a fresh comment, insert it before the cleared
range's old next sibling, and return a `ConcreteBounds` wrapping it. -/
def clearWithComment (d : DOM) (b : Bounds) : DOM × Bounds :=
  let cleared := clear d b
  let parent := b.parentElement
  let created := cleared.1.createComment
  let d3 := created.1.insertBefore b.parentElement created.2 cleared.2
  (d3, ConcreteBounds parent (some created.2) (some created.2))

/-- The while-loop of `insertBoundsBefore` (morph.ts lines 329-335).  Note
the source reads `current.nextSibling` only AFTER `dom.insertBefore` has
already moved `current`, so the value read is the sibling in the NEW
position.  The loop is not structurally terminating (it chases a mutable
sibling link), so it takes explicit fuel; `fuel 0` cuts the walk short,
and every theorem about it evaluates at inputs where the loop provably
stops well within the supplied fuel. -/
def insertBoundsBeforeLoop (parent : Nat) (last : Option Nat)
    (nextSibling : Option Nat) : Nat → DOM → Option Nat → DOM
  | 0, d, _ => d
  | _ + 1, d, none => d
  | fuel + 1, d, some current =>
    let d1 := d.insertBefore parent current nextSibling
    if some current = last then d1
    else insertBoundsBeforeLoop parent last nextSibling fuel d1
      (d1.nextSibling current)

/-- Embedding of `insertBoundsBefore(parent, bounds, reference, dom)`
(morph.ts lines 324-336). -/
def insertBoundsBefore (fuel : Nat) (d : DOM) (parent : Nat) (b : Bounds)
    (reference : Option Bounds) : DOM :=
  let first := b.firstNode
  let last := b.lastNode
  let nextSibling := reference.bind (·.firstNode)
  insertBoundsBeforeLoop parent last nextSibling fuel d first

/-- The state of the `EmptyableMorph` internal state machine, as a tagged
union: the three `EmptyableMorphOperations` subclasses `Appending`,
`Empty` (holding its placeholder comment node) and `HasContent` (holding
its bounds). -/
inductive MorphOps where
  | appending : MorphOps
  | empty (comment : Nat) : MorphOps
  | hasContent (bounds : Bounds) : MorphOps
deriving DecidableEq, Repr

/-- The `Empty` state's constructor (morph.ts lines 165-169): create a
comment and insert it into the morph's parent before `nextSibling`. -/
def mkEmpty (d : DOM) (parentNode : Nat) (nextSibling : Option Nat) :
    DOM × MorphOps :=
  let created := d.createComment
  (created.1.insertBefore parentNode created.2 nextSibling,
   .empty created.2)

/-- firstNode() of each operations state. -/
def opsFirstNode : MorphOps → Option Nat
  | .appending => none
  | .empty c => some c
  | .hasContent b => b.firstNode

/-- lastNode() of each operations state. -/
def opsLastNode : MorphOps → Option Nat
  | .appending => none
  | .empty c => some c
  | .hasContent b => b.lastNode

/-- nextSiblingForContent() of each operations state. -/
def opsNextSiblingForContent : MorphOps → Option Nat
  | .appending => none
  | .empty c => some c
  | .hasContent b => b.firstNode

/-- didBecomeEmpty() dispatched on the current operations state:
`Appending` installs a placeholder at the null anchor, `Empty` is a no-op,
`HasContent` clears its bounds and installs a placeholder at the returned
anchor. -/
def opsDidBecomeEmpty (d : DOM) (parentNode : Nat) :
    MorphOps → DOM × MorphOps
  | .appending => mkEmpty d parentNode none
  | .empty c => (d, .empty c)
  | .hasContent b =>
    let cleared := clear d b
    mkEmpty cleared.1 parentNode cleared.2

/-- didInsertContent(bounds) dispatched on the current operations state:
`Appending` adopts the bounds, `Empty` removes its placeholder comment
first, `HasContent` clears its old bounds first. -/
def opsDidInsertContent (d : DOM) (newBounds : Bounds) :
    MorphOps → DOM × MorphOps
  | .appending => (d, .hasContent newBounds)
  | .empty c => (d.removeFromParent c, .hasContent newBounds)
  | .hasContent b => ((clear d b).1, .hasContent newBounds)

/-- An `EmptyableMorph`: its parent element and its current operations
state. -/
structure EmptyableMorph where
  parentNode : Nat
  currentOperations : MorphOps
deriving DecidableEq, Repr

namespace EmptyableMorph

/-- firstNode() delegates to the current operations state. -/
def firstNode (m : EmptyableMorph) : Option Nat :=
  opsFirstNode m.currentOperations

/-- lastNode() delegates to the current operations state. -/
def lastNode (m : EmptyableMorph) : Option Nat :=
  opsLastNode m.currentOperations

/-- nextSibling() is `this.lastNode().nextSibling`: the outer `none` marks
the null dereference that occurs in the source when `lastNode()` is null,
otherwise the inner value is the actual sibling link. -/
def nextSibling (d : DOM) (m : EmptyableMorph) : Option (Option Nat) :=
  match m.lastNode with
  | none => none
  | some n => some (d.nextSibling n)

/-- didBecomeEmpty() delegates to the current operations state. -/
def didBecomeEmpty (d : DOM) (m : EmptyableMorph) : DOM × EmptyableMorph :=
  let r := opsDidBecomeEmpty d m.parentNode m.currentOperations
  (r.1, { m with currentOperations := r.2 })

/-- didInsertContent(bounds) delegates to the current operations state. -/
def didInsertContent (d : DOM) (m : EmptyableMorph) (b : Bounds) :
    DOM × EmptyableMorph :=
  let r := opsDidInsertContent d b m.currentOperations
  (r.1, { m with currentOperations := r.2 })

/-- nextSiblingForContent() delegates to the current operations state. -/
def nextSiblingForContent (m : EmptyableMorph) : Option Nat :=
  opsNextSiblingForContent m.currentOperations

end EmptyableMorph

/-- The three-step transition sequence of the state-machine round trip:
`didInsertContent b1`, then `didBecomeEmpty`, then `didInsertContent b2`,
starting from morph `m` in document `d`. -/
def roundTripSeq (d : DOM) (m : EmptyableMorph) (b1 b2 : Bounds) :
    DOM × EmptyableMorph :=
  let s1 := m.didInsertContent d b1
  let s2 := s1.2.didBecomeEmpty s1.1
  s2.2.didInsertContent s2.1 b2

/-- Number of comment nodes among element `e`'s children: the placeholder
census the state machine is supposed to keep at exactly one while empty. -/
def placeholderCount (d : DOM) (e : Nat) : Nat :=
  ((d.childrenOf e).filter (fun x => d.comments.contains x)).length

/-- Modelled from the spec: a `RenderResult` (from `./render`, not part of
the source under verification) exposes `firstNode()`, `lastNode()`,
`rerender()` and a `template` identity field; it implements `Bounds` over
the nodes its evaluation produced. -/
structure RenderResult where
  template : Nat
  parentNode : Nat
  first : Option Nat
  last : Option Nat
deriving DecidableEq, Repr

/-- A RenderResult viewed through the `Bounds` interface. -/
def RenderResult.toBounds (r : RenderResult) : Bounds :=
  ⟨r.parentNode, r.first, r.last⟩

/-- Modelled from the spec: a `Template` (from `./template`, not part of the
source under verification) is identified by `id` (the `===` identity used
for the same-template check) and produces `size` fresh nodes when
evaluated. -/
structure Template where
  id : Nat
  size : Nat
deriving DecidableEq, Repr

/-- Modelled from the spec: `template.evaluate(morph, nextSibling)` produces
`size` fresh nodes, inserts them in order immediately before `nextSibling`
in the morph's parent, and returns a `RenderResult` spanning them that
records the template's identity. -/
def Template.evaluate (t : Template) (d : DOM) (parentNode : Nat)
    (nextSibling : Option Nat) : DOM × RenderResult :=
  let ids := (List.range t.size).map (d.nextId + ·)
  let d1 := ids.foldl (fun (acc : DOM) n => acc.insertBefore parentNode n nextSibling)
    { d with nextId := d.nextId + t.size }
  (d1, ⟨t.id, parentNode, ids.head?, ids.getLast?⟩)

/-- Observable calls a `TemplateMorph` makes into the evaluation engine:
a fresh evaluation via `appendTemplate`, or an in-place `rerender()` of the
existing result. -/
inductive EngineCall where
  | appendTemplate (templateId : Nat) : EngineCall
  | rerender (templateId : Nat) : EngineCall
deriving DecidableEq, Repr

/-- A `TemplateMorph`: an `EmptyableMorph` that additionally caches the most
recent `RenderResult` (or none). -/
structure TemplateMorph where
  parentNode : Nat
  currentOperations : MorphOps
  lastResult : Option RenderResult
deriving DecidableEq, Repr

namespace TemplateMorph

/-- firstNode() prefers `lastResult` and falls back to the state machine. -/
def firstNode (m : TemplateMorph) : Option Nat :=
  match m.lastResult with
  | some r => r.first
  | none => opsFirstNode m.currentOperations

/-- lastNode() prefers `lastResult` and falls back to the state machine. -/
def lastNode (m : TemplateMorph) : Option Nat :=
  match m.lastResult with
  | some r => r.last
  | none => opsLastNode m.currentOperations

/-- appendTemplate(template, nextSibling): evaluate the template at the
anchor, store the result as `lastResult`, and report its bounds through
`didInsertContent`.  Also returns the engine calls made. -/
def appendTemplate (m : TemplateMorph) (d : DOM) (t : Template)
    (nextSibling : Option Nat) : DOM × TemplateMorph × List EngineCall :=
  let evaluated := t.evaluate d m.parentNode nextSibling
  let r := opsDidInsertContent evaluated.1 evaluated.2.toBounds
    m.currentOperations
  (r.1, { m with currentOperations := r.2, lastResult := some evaluated.2 },
   [.appendTemplate t.id])

/-- updateTemplate(template): append fresh when there is no prior result,
rerender in place when the template identity matches the prior result's,
and re-anchor plus append fresh when it differs.  `rerender()` is the
result patching itself in place; its internal patching is outside this
core, so it is modelled as leaving the DOM and morph unchanged. -/
def updateTemplate (m : TemplateMorph) (d : DOM) (t : Template) :
    DOM × TemplateMorph × List EngineCall :=
  match m.lastResult with
  | none =>
    let nextSibling := opsNextSiblingForContent m.currentOperations
    m.appendTemplate d t nextSibling
  | some lastResult =>
    if t.id = lastResult.template then
      (d, m, [.rerender t.id])
    else
      let nextSibling := opsNextSiblingForContent m.currentOperations
      m.appendTemplate d t nextSibling

/-- didBecomeEmpty() override: delegate to the base transition, then clear
`lastResult`. -/
def didBecomeEmpty (d : DOM) (m : TemplateMorph) : DOM × TemplateMorph :=
  let r := opsDidBecomeEmpty d m.parentNode m.currentOperations
  (r.1, { m with currentOperations := r.2, lastResult := none })

end TemplateMorph

/-! List-level facts about the walk of `clear`, `insBefore`, and iterated
erasure, used to compute the DOM operations on explicit child lists. -/

theorem dropWhile_ne_append {pre : List Nat} {f : Nat} (rest : List Nat)
    (hf : f ∉ pre) : (pre ++ f :: rest).dropWhile (· ≠ f) = f :: rest := by
  induction pre with
  | nil => simp [List.dropWhile_cons]
  | cons a as ih =>
    have h1 : ¬(a = f) := fun h => hf (by simp [h])
    have h2 : f ∉ as := fun h => hf (List.mem_cons_of_mem _ h)
    rw [List.cons_append, List.dropWhile_cons_of_pos (by simp [h1])]
    exact ih h2

theorem takeWhile_ne_append {pre : List Nat} {f : Nat} (rest : List Nat)
    (hf : f ∉ pre) : (pre ++ f :: rest).takeWhile (· ≠ f) = pre := by
  induction pre with
  | nil => simp [List.takeWhile_cons]
  | cons a as ih =>
    have h1 : ¬(a = f) := fun h => hf (by simp [h])
    have h2 : f ∉ as := fun h => hf (List.mem_cons_of_mem _ h)
    rw [List.cons_append, List.takeWhile_cons_of_pos (by simp [h1])]
    rw [ih h2]

theorem walkClear_not_mem {l : Nat} {xs : List Nat} (h : l ∉ xs) :
    walkClear l xs = (xs, none) := by
  induction xs with
  | nil => rfl
  | cons a as ih =>
    have h1 : ¬(a = l) := fun he => (by simp [he] at h)
    have h2 : l ∉ as := fun he => h (List.mem_cons_of_mem _ he)
    rw [walkClear, if_neg h1, ih h2]

theorem walkClear_layout {ns : List Nat} {l : Nat} (post : List Nat)
    (hl : ns.getLast? = some l) (hnd : l ∉ ns.dropLast) :
    walkClear l (ns ++ post) = (ns, post.head?) := by
  induction ns with
  | nil => simp at hl
  | cons a as ih =>
    cases as with
    | nil =>
      simp only [List.getLast?_singleton, Option.some.injEq] at hl
      subst hl
      simp [walkClear]
    | cons b bs =>
      rw [List.getLast?_cons_cons] at hl
      rw [List.dropLast_cons₂] at hnd
      have ha : ¬(a = l) := fun he => hnd (by simp [he])
      have hnd' : l ∉ (b :: bs).dropLast :=
        fun he => hnd (List.mem_cons_of_mem _ he)
      have hrec := ih hl hnd'
      rw [List.cons_append, walkClear, if_neg ha, hrec]

theorem foldl_erase_layout {ns : List Nat} {pre post : List Nat}
    (hnd : (pre ++ ns ++ post).Nodup) :
    ns.foldl List.erase (pre ++ ns ++ post) = pre ++ post := by
  induction ns generalizing pre with
  | nil => simp
  | cons a as ih =>
    have hnd2 : (pre ++ ((a :: as) ++ post)).Nodup := by
      rwa [← List.append_assoc]
    have ha_pre : a ∉ pre := fun hmem =>
      (List.nodup_append.mp hnd2).2.2 hmem (by simp)
    have step : (pre ++ (a :: as) ++ post).erase a = pre ++ as ++ post := by
      rw [List.append_assoc, List.erase_append_right _ ha_pre,
        List.cons_append, List.erase_cons_head, ← List.append_assoc]
    have hnd' : (pre ++ as ++ post).Nodup := by
      rw [← step]
      exact List.Nodup.erase a hnd
    rw [List.foldl_cons, step]
    exact ih hnd'

theorem foldl_erase_subset (ns : List Nat) (l : List Nat) :
    ns.foldl List.erase l ⊆ l := by
  induction ns generalizing l with
  | nil => simp [List.Subset.refl]
  | cons a as ih =>
    intro x hx
    exact List.erase_subset a l (ih (l.erase a) hx)

theorem mem_insBefore {n : Nat} {ref : Option Nat} {cs : List Nat} {x : Nat}
    (hx : x ∈ DOM.insBefore n ref cs) : x ∈ cs ∨ x = n := by
  cases ref with
  | none =>
    rcases List.mem_append.mp hx with h | h
    · exact Or.inl h
    · simp at h; exact Or.inr h
  | some r =>
    simp only [DOM.insBefore, List.mem_append, List.mem_cons] at hx
    rcases hx with h | h | h
    · exact Or.inl ((List.takeWhile_sublist _).subset h)
    · exact Or.inr h
    · exact Or.inl ((List.dropWhile_sublist _).subset h)

theorem insBefore_head {c : Nat} {pre post : List Nat}
    (hhead : ∀ h, post.head? = some h → h ∉ pre) :
    DOM.insBefore c post.head? (pre ++ post) = pre ++ c :: post := by
  cases post with
  | nil => simp [DOM.insBefore]
  | cons h t =>
    have hp : h ∉ pre := hhead h rfl
    simp only [DOM.insBefore, List.head?_cons]
    rw [takeWhile_ne_append t hp, dropWhile_ne_append t hp]

/-! Association-list level facts about lookup, find? and the key-preserving
maps that implement the DOM mutations. -/

theorem lookup_update {l : List (Nat × List Nat)} {e : Nat} (cs : List Nat)
    (h : (l.lookup e).isSome) :
    (l.map (fun p => if p.1 = e then (e, cs) else p)).lookup e = some cs := by
  induction l with
  | nil => simp [List.lookup] at h
  | cons a as ih =>
    obtain ⟨k, v⟩ := a
    by_cases hk : k = e
    · subst hk
      simp [List.lookup_cons]
    · have hbeq : (e == k) = false := beq_eq_false_iff_ne.mpr (Ne.symm hk)
      have h' : (as.lookup e).isSome := by
        simpa [List.lookup_cons, hbeq] using h
      simpa [List.lookup_cons, hbeq, hk] using ih h'

theorem lookup_map_value {l : List (Nat × List Nat)} (g : List Nat → List Nat)
    (e : Nat) :
    (l.map (fun p => (p.1, g p.2))).lookup e = (l.lookup e).map g := by
  induction l with
  | nil => simp [List.lookup]
  | cons a as ih =>
    obtain ⟨k, v⟩ := a
    by_cases hk : e = k
    · subst hk
      simp [List.lookup_cons]
    · have hbeq : (e == k) = false := beq_eq_false_iff_ne.mpr hk
      simpa [List.lookup_cons, hbeq] using ih

theorem lookup_map_erase {l : List (Nat × List Nat)} (n e : Nat) :
    (l.map (fun p => (p.1, p.2.erase n))).lookup e
      = (l.lookup e).map (fun v => v.erase n) := by
  induction l with
  | nil => simp [List.lookup]
  | cons a as ih =>
    obtain ⟨k, v⟩ := a
    by_cases hk : e = k
    · subst hk
      simp [List.lookup_cons]
    · have hbeq : (e == k) = false := beq_eq_false_iff_ne.mpr hk
      simpa [List.lookup_cons, hbeq] using ih

theorem lookup_isSome_update {l : List (Nat × List Nat)} {e e' : Nat}
    (cs : List Nat) :
    ((l.map (fun p => if p.1 = e then (e, cs) else p)).lookup e').isSome
      = (l.lookup e').isSome := by
  induction l with
  | nil => simp [List.lookup]
  | cons a as ih =>
    obtain ⟨k, v⟩ := a
    by_cases hk : k = e
    · subst hk
      by_cases hk' : e' = k
      · subst hk'
        simp [List.lookup_cons]
      · have hbeq : (e' == k) = false := beq_eq_false_iff_ne.mpr hk'
        simpa [List.lookup_cons, hbeq] using ih
    · by_cases hk' : e' = k
      · subst hk'
        simp [List.lookup_cons, hk]
      · have hbeq : (e' == k) = false := beq_eq_false_iff_ne.mpr hk'
        simpa [List.lookup_cons, hk, hbeq] using ih

theorem mem_of_lookup_eq_some {l : List (Nat × List Nat)} {e : Nat}
    {v : List Nat} (h : l.lookup e = some v) : (e, v) ∈ l := by
  induction l with
  | nil => simp [List.lookup] at h
  | cons a as ih =>
    obtain ⟨k, w⟩ := a
    by_cases hk : e = k
    · subst hk
      simp only [List.lookup_cons, beq_self_eq_true] at h
      simp only [Option.some.injEq] at h
      subst h
      exact List.mem_cons_self _ _
    · have hbeq : (e == k) = false := beq_eq_false_iff_ne.mpr hk
      rw [List.lookup_cons] at h
      simp only [hbeq] at h
      exact List.mem_cons_of_mem _ (ih h)

theorem find?_contains_update {l : List (Nat × List Nat)} {e c : Nat}
    {cs : List Nat} (h : (l.lookup e).isSome)
    (hfr : ∀ pr ∈ l, c ∉ pr.2) (hc : c ∈ cs) :
    (l.map (fun p => if p.1 = e then (e, cs) else p)).find?
      (fun p => p.2.contains c) = some (e, cs) := by
  induction l with
  | nil => simp [List.lookup] at h
  | cons a as ih =>
    obtain ⟨k, v⟩ := a
    by_cases hk : k = e
    · subst hk
      simp [List.find?_cons, List.elem_iff, hc]
    · have hbeq : (e == k) = false := beq_eq_false_iff_ne.mpr (Ne.symm hk)
      have hv : c ∉ v := hfr (k, v) (List.mem_cons_self _ _)
      have h' : (as.lookup e).isSome := by
        simpa [List.lookup_cons, hbeq] using h
      have hfr' : ∀ pr ∈ as, c ∉ pr.2 :=
        fun pr hpr => hfr pr (List.mem_cons_of_mem _ hpr)
      simpa [List.find?_cons, hk, List.elem_iff, hv] using ih h' hfr'

/-! Computation lemmas for the DOM operations on explicit child lists. -/

theorem childrenOf_setChildren_self {d : DOM} {e : Nat} (cs : List Nat)
    (he : d.hasElem e) : (d.setChildren e cs).childrenOf e = cs := by
  unfold DOM.hasElem at he
  unfold DOM.childrenOf DOM.setChildren
  rw [lookup_update cs he]
  rfl

theorem hasElem_setChildren {d : DOM} {e e' : Nat} (cs : List Nat) :
    (d.setChildren e cs).hasElem e' ↔ d.hasElem e' := by
  unfold DOM.hasElem DOM.setChildren
  rw [lookup_isSome_update]

theorem comments_setChildren (d : DOM) (e : Nat) (cs : List Nat) :
    (d.setChildren e cs).comments = d.comments := rfl

theorem nextId_setChildren (d : DOM) (e : Nat) (cs : List Nat) :
    (d.setChildren e cs).nextId = d.nextId := rfl

theorem childrenOf_removeEverywhere (d : DOM) (n e : Nat) :
    (d.removeEverywhere n).childrenOf e = (d.childrenOf e).erase n := by
  simp only [DOM.childrenOf, DOM.removeEverywhere]
  rw [lookup_map_erase]
  cases d.elems.lookup e <;> rfl

theorem hasElem_removeEverywhere {d : DOM} {n e : Nat} :
    (d.removeEverywhere n).hasElem e ↔ d.hasElem e := by
  simp only [DOM.hasElem, DOM.removeEverywhere]
  rw [lookup_map_erase]
  cases d.elems.lookup e <;> simp

theorem childrenOf_removeChild {d : DOM} {e : Nat} (n : Nat)
    (he : d.hasElem e) :
    (d.removeChild e n).childrenOf e = (d.childrenOf e).erase n :=
  childrenOf_setChildren_self _ he

theorem hasElem_removeChild {d : DOM} {e e' : Nat} {n : Nat} :
    (d.removeChild e n).hasElem e' ↔ d.hasElem e' :=
  hasElem_setChildren _

theorem comments_removeChild (d : DOM) (e n : Nat) :
    (d.removeChild e n).comments = d.comments := rfl

theorem nextId_removeChild (d : DOM) (e n : Nat) :
    (d.removeChild e n).nextId = d.nextId := rfl

theorem childrenOf_insertBefore {d : DOM} {e n : Nat} {ref : Option Nat}
    (he : d.hasElem e) (hne : ref ≠ some n) :
    (d.insertBefore e n ref).childrenOf e
      = DOM.insBefore n ref ((d.childrenOf e).erase n) := by
  unfold DOM.insertBefore
  simp only [if_neg hne]
  rw [childrenOf_setChildren_self _ (hasElem_removeEverywhere.mpr he),
    childrenOf_removeEverywhere]

theorem hasElem_insertBefore {d : DOM} {e e' n : Nat} {ref : Option Nat} :
    (d.insertBefore e n ref).hasElem e' ↔ d.hasElem e' := by
  unfold DOM.insertBefore
  rw [hasElem_setChildren, hasElem_removeEverywhere]

theorem comments_insertBefore (d : DOM) (e n : Nat) (ref : Option Nat) :
    (d.insertBefore e n ref).comments = d.comments := rfl

theorem nextId_insertBefore (d : DOM) (e n : Nat) (ref : Option Nat) :
    (d.insertBefore e n ref).nextId = d.nextId := rfl

theorem self_mem_insBefore (n : Nat) (ref : Option Nat) (cs : List Nat) :
    n ∈ DOM.insBefore n ref cs := by
  cases ref with
  | none => simp [DOM.insBefore]
  | some r => simp [DOM.insBefore]

theorem parentOf_insertBefore_self {d : DOM} {e n : Nat} {ref : Option Nat}
    (he : d.hasElem e) (hfr : ∀ pr ∈ d.elems, n ∉ pr.2) (hne : ref ≠ some n) :
    (d.insertBefore e n ref).parentOf n = some e := by
  simp only [DOM.insertBefore, if_neg hne, DOM.parentOf, DOM.setChildren,
    DOM.removeEverywhere, DOM.childrenOf]
  have hlk : ((d.elems.map (fun p => (p.1, p.2.erase n))).lookup e).isSome := by
    rw [lookup_map_erase]
    unfold DOM.hasElem at he
    cases hl : d.elems.lookup e with
    | none => rw [hl] at he; simp at he
    | some v => simp
  have hfr' : ∀ pr ∈ d.elems.map (fun p => (p.1, p.2.erase n)), n ∉ pr.2 := by
    intro pr hpr
    simp only [List.mem_map] at hpr
    obtain ⟨q, hq, hqe⟩ := hpr
    subst hqe
    exact fun hmem => hfr q hq (List.erase_subset _ _ hmem)
  have hmem := self_mem_insBefore n ref
    (((d.elems.map (fun p => (p.1, p.2.erase n))).lookup e).getD [])
  rw [find?_contains_update hlk hfr' hmem]
  rfl

theorem childrenOf_lt_of_fresh {d : DOM} (h : d.Fresh) (e : Nat) :
    ∀ x ∈ d.childrenOf e, x < d.nextId := by
  intro x hx
  unfold DOM.childrenOf at hx
  cases hl : d.elems.lookup e with
  | none => rw [hl] at hx; simp at hx
  | some v =>
    rw [hl] at hx
    exact h (e, v) (mem_of_lookup_eq_some hl) x hx

theorem fresh_setChildren {d : DOM} {e : Nat} {cs : List Nat} (h : d.Fresh)
    (hcs : ∀ x ∈ cs, x < d.nextId) : (d.setChildren e cs).Fresh := by
  intro pr hpr x hx
  unfold DOM.setChildren at hpr
  simp only [List.mem_map] at hpr
  obtain ⟨q, hq, hqe⟩ := hpr
  show x < d.nextId
  by_cases hqq : q.1 = e
  · rw [if_pos hqq] at hqe
    subst hqe
    exact hcs x hx
  · rw [if_neg hqq] at hqe
    subst hqe
    exact h q hq x hx

theorem fresh_removeChild {d : DOM} {e n : Nat} (h : d.Fresh) :
    (d.removeChild e n).Fresh :=
  fresh_setChildren h
    (fun x hx => childrenOf_lt_of_fresh h e x (List.erase_subset _ _ hx))

theorem fresh_removeEverywhere {d : DOM} {n : Nat} (h : d.Fresh) :
    (d.removeEverywhere n).Fresh := by
  intro pr hpr x hx
  unfold DOM.removeEverywhere at hpr
  simp only [List.mem_map] at hpr
  obtain ⟨q, hq, hqe⟩ := hpr
  subst hqe
  exact h q hq x (List.erase_subset _ _ hx)

theorem fresh_insertBefore {d : DOM} {e n : Nat} {ref : Option Nat}
    (h : d.Fresh) (hn : n < d.nextId) : (d.insertBefore e n ref).Fresh := by
  unfold DOM.insertBefore
  apply fresh_setChildren (fresh_removeEverywhere h)
  intro x hx
  rcases mem_insBefore hx with hmem | rfl
  · exact childrenOf_lt_of_fresh (fresh_removeEverywhere h) e x hmem
  · exact hn

theorem fresh_removeAllFrom {e : Nat} (ns : List Nat) :
    ∀ d : DOM, d.Fresh → (removeAllFrom d e ns).Fresh := by
  induction ns with
  | nil => intro d h; exact h
  | cons a as ih =>
    intro d h
    exact ih _ (fresh_removeChild h)

theorem childrenOf_removeAllFrom {e : Nat} (ns : List Nat) :
    ∀ d : DOM, d.hasElem e →
      (removeAllFrom d e ns).childrenOf e
        = ns.foldl List.erase (d.childrenOf e) := by
  induction ns with
  | nil => intro d _; rfl
  | cons a as ih =>
    intro d he
    rw [show removeAllFrom d e (a :: as) = removeAllFrom (d.removeChild e a) e as
      from rfl]
    rw [ih _ (hasElem_removeChild.mpr he), childrenOf_removeChild a he,
      List.foldl_cons]

theorem hasElem_removeAllFrom {e e' : Nat} (ns : List Nat) :
    ∀ d : DOM, ((removeAllFrom d e ns).hasElem e' ↔ d.hasElem e') := by
  induction ns with
  | nil => intro d; exact Iff.rfl
  | cons a as ih =>
    intro d
    exact (ih _).trans hasElem_removeChild

theorem comments_removeAllFrom {e : Nat} (ns : List Nat) :
    ∀ d : DOM, (removeAllFrom d e ns).comments = d.comments := by
  induction ns with
  | nil => intro d; rfl
  | cons a as ih => intro d; exact ih _

theorem nextId_removeAllFrom {e : Nat} (ns : List Nat) :
    ∀ d : DOM, (removeAllFrom d e ns).nextId = d.nextId := by
  induction ns with
  | nil => intro d; rfl
  | cons a as ih => intro d; exact ih _

theorem length_filter_take_drop (q p : Nat → Bool) (l : List Nat) :
    ((l.takeWhile p).filter q).length + ((l.dropWhile p).filter q).length
      = (l.filter q).length := by
  have h := congrArg (fun t => (List.filter q t).length)
    (List.takeWhile_append_dropWhile p l)
  simp only [List.filter_append, List.length_append] at h
  exact h

theorem length_filter_insBefore {q : Nat → Bool} {c : Nat} {ref : Option Nat}
    (l : List Nat) (hc : q c = true) :
    ((DOM.insBefore c ref l).filter q).length = (l.filter q).length + 1 := by
  cases ref with
  | none => simp [DOM.insBefore, List.filter_append, hc]
  | some r =>
    have h := length_filter_take_drop q (fun x => !decide (x = r)) l
    simp [DOM.insBefore, List.filter_append, hc]
    omega

/-! Preservation and computation lemmas for `clear`. -/

theorem comments_clear (d : DOM) (b : Bounds) :
    (clear d b).1.comments = d.comments := by
  cases hb : b.firstNode with
  | none => simp [clear, hb]
  | some f => simp [clear, hb, comments_removeAllFrom]

theorem nextId_clear (d : DOM) (b : Bounds) :
    (clear d b).1.nextId = d.nextId := by
  cases hb : b.firstNode with
  | none => simp [clear, hb]
  | some f => simp [clear, hb, nextId_removeAllFrom]

theorem hasElem_clear {d : DOM} {b : Bounds} {e : Nat} :
    (clear d b).1.hasElem e ↔ d.hasElem e := by
  cases hb : b.firstNode with
  | none => simp [clear, hb]
  | some f =>
    simp only [clear, hb]
    exact hasElem_removeAllFrom _ _

theorem fresh_clear {d : DOM} {b : Bounds} (h : d.Fresh) :
    (clear d b).1.Fresh := by
  cases hb : b.firstNode with
  | none => simpa [clear, hb] using h
  | some f =>
    simp only [clear, hb]
    exact fresh_removeAllFrom _ _ h

/-- Computation of `clear` on a well-formed layout: the parent's child list
decomposes as `pre ++ ns ++ post` with the bounds spanning exactly the
(nonempty, duplicate-free) block `ns`. -/
theorem clear_layout {d : DOM} {p : Nat} {pre ns post : List Nat} {b : Bounds}
    (hp : d.hasElem p)
    (hcs : d.childrenOf p = pre ++ ns ++ post)
    (hnd : (pre ++ ns ++ post).Nodup)
    (hne : ns ≠ [])
    (hbp : b.parentNode = p) (hbf : b.first = ns.head?)
    (hbl : b.last = ns.getLast?) :
    (clear d b).1.childrenOf p = pre ++ post
      ∧ (clear d b).2 = post.head? := by
  obtain ⟨f, rest, rfl⟩ := List.exists_cons_of_ne_nil hne
  have hl' := List.getLast?_eq_getLast (f :: rest) hne
  set l := (f :: rest).getLast hne with hldef
  have hnodup_mid : (f :: rest).Nodup :=
    (List.nodup_append.mp (List.nodup_append.mp hnd).1).2.1
  have hdisj_pre : pre.Disjoint (f :: rest) :=
    (List.nodup_append.mp (List.nodup_append.mp hnd).1).2.2
  have hf_pre : f ∉ pre := fun hmem => hdisj_pre hmem (List.mem_cons_self _ _)
  have hldl : l ∉ (f :: rest).dropLast := by
    intro hmem
    have hsplit := List.dropLast_append_getLast hne
    have : ¬ (f :: rest).Nodup := by
      rw [← hsplit]
      intro hnd2
      exact (List.nodup_append.mp hnd2).2.2 hmem (List.mem_cons_self _ _)
    exact this hnodup_mid
  have hsuffix : (d.childrenOf p).dropWhile (· ≠ f) = (f :: rest) ++ post := by
    rw [hcs, List.append_assoc, List.cons_append]
    exact dropWhile_ne_append _ hf_pre
  have hwalk := walkClear_layout post hl' hldl
  have hbf' : b.firstNode = some f := by
    rw [Bounds.firstNode, hbf]; rfl
  have hbl' : b.lastNode = some l := by
    rw [Bounds.lastNode, hbl, hl']
  have hbp' : b.parentElement = p := by
    rw [Bounds.parentElement, hbp]
  simp only [clear, hbf', hbl', hbp', hsuffix, hwalk]
  constructor
  · rw [childrenOf_removeAllFrom _ _ hp, hcs]
    exact foldl_erase_layout hnd
  · trivial

/-- The `nextSibling` link of the last node of a layout block. -/
theorem nextSibling_layout {d : DOM} {p l : Nat} {pre ns post : List Nat}
    (hcs : d.childrenOf p = pre ++ ns ++ post)
    (hnd : (pre ++ ns ++ post).Nodup)
    (hl : ns.getLast? = some l)
    (hpl : d.parentOf l = some p) :
    d.nextSibling l = post.head? := by
  have hne : ns ≠ [] := by
    intro h
    rw [h] at hl
    simp at hl
  have hgl := List.getLast?_eq_getLast ns hne
  have hlast_eq : ns.getLast hne = l := by
    rw [hgl] at hl
    exact Option.some.inj hl
  have hsplit : ns.dropLast ++ [l] = ns := by
    rw [← hlast_eq]
    exact List.dropLast_append_getLast hne
  have e1 : pre ++ ns ++ post = (pre ++ ns.dropLast) ++ (l :: post) := by
    rw [← hsplit]
    simp [List.append_assoc]
  have hnd' : ((pre ++ ns.dropLast) ++ (l :: post)).Nodup := e1 ▸ hnd
  have hshape : d.childrenOf p = (pre ++ ns.dropLast) ++ (l :: post) :=
    hcs.trans e1
  have hl_not : l ∉ pre ++ ns.dropLast := fun hmem =>
    (List.nodup_append.mp hnd').2.2 hmem (List.mem_cons_self _ _)
  simp only [DOM.nextSibling, hpl, DOM.nextIn]
  rw [hshape, dropWhile_ne_append _ hl_not]
  simp

/-! Computation lemmas for `createComment`. -/

theorem createComment_snd (d : DOM) : (d.createComment).2 = d.nextId := rfl

theorem childrenOf_createComment (d : DOM) (e : Nat) :
    (d.createComment).1.childrenOf e = d.childrenOf e := rfl

theorem hasElem_createComment {d : DOM} {e : Nat} :
    (d.createComment).1.hasElem e ↔ d.hasElem e := Iff.rfl

theorem comments_createComment (d : DOM) :
    (d.createComment).1.comments = d.comments ++ [d.nextId] := rfl

theorem nextId_createComment (d : DOM) :
    (d.createComment).1.nextId = d.nextId + 1 := rfl

theorem fresh_createComment {d : DOM} (h : d.Fresh) :
    (d.createComment).1.Fresh :=
  fun pr hpr x hx => Nat.lt_succ_of_lt (h pr hpr x hx)

theorem head?_mem {post : List Nat} {h : Nat} (hh : post.head? = some h) :
    h ∈ post := by
  cases post with
  | nil => simp at hh
  | cons a t =>
    simp only [List.head?_cons, Option.some.injEq] at hh
    rw [← hh]
    exact List.mem_cons_self _ _

theorem lookup_update_ne {l : List (Nat × List Nat)} {e e' : Nat}
    (cs : List Nat) (h : e' ≠ e) :
    (l.map (fun p => if p.1 = e then (e, cs) else p)).lookup e'
      = l.lookup e' := by
  induction l with
  | nil => simp
  | cons a as ih =>
    obtain ⟨k, v⟩ := a
    by_cases hk : k = e
    · subst hk
      have hbeq : (e' == k) = false := beq_eq_false_iff_ne.mpr h
      simpa [List.lookup_cons, hbeq] using ih
    · by_cases hk' : e' = k
      · subst hk'
        simp [List.lookup_cons, hk]
      · have hbeq : (e' == k) = false := beq_eq_false_iff_ne.mpr hk'
        simpa [List.lookup_cons, hk, hbeq] using ih

theorem childrenOf_setChildren_ne {d : DOM} {e e' : Nat} (cs : List Nat)
    (h : e' ≠ e) : (d.setChildren e cs).childrenOf e' = d.childrenOf e' := by
  unfold DOM.childrenOf DOM.setChildren
  rw [lookup_update_ne cs h]

theorem childrenOf_eq_nil_of_not_hasElem {d : DOM} {e : Nat}
    (h : ¬ d.hasElem e) : d.childrenOf e = [] := by
  unfold DOM.childrenOf
  unfold DOM.hasElem at h
  cases hl : d.elems.lookup e with
  | none => rfl
  | some v => rw [hl] at h; simp at h

theorem childrenOf_removeChild_subset {d : DOM} {e e' : Nat} {n : Nat} :
    ∀ x ∈ (d.removeChild e n).childrenOf e', x ∈ d.childrenOf e' := by
  intro x hx
  by_cases he' : e' = e
  · subst he'
    by_cases he : d.hasElem e'
    · rw [childrenOf_removeChild n he] at hx
      exact List.erase_subset _ _ hx
    · have hne2 : ¬ (d.removeChild e' n).hasElem e' :=
        fun hh => he (hasElem_removeChild.mp hh)
      rw [childrenOf_eq_nil_of_not_hasElem hne2] at hx
      exact absurd hx (List.not_mem_nil x)
  · rw [show d.removeChild e n = d.setChildren e ((d.childrenOf e).erase n)
      from rfl, childrenOf_setChildren_ne _ he'] at hx
    exact hx

theorem contains_eq_false {l : List Nat} {x : Nat} (h : x ∉ l) :
    l.contains x = false := by
  cases hc : l.contains x with
  | false => rfl
  | true => exact absurd (List.elem_iff.mp hc) h

theorem contains_eq_true {l : List Nat} {x : Nat} (h : x ∈ l) :
    l.contains x = true := List.elem_iff.mpr h

theorem walkClear_ret_mem {l : Nat} {xs : List Nat} {h : Nat}
    (hret : (walkClear l xs).2 = some h) : h ∈ xs := by
  induction xs with
  | nil => simp [walkClear] at hret
  | cons a rest ih =>
    rw [walkClear] at hret
    by_cases ha : a = l
    · rw [if_pos ha] at hret
      exact List.mem_cons_of_mem _ (head?_mem hret)
    · rw [if_neg ha] at hret
      exact List.mem_cons_of_mem _ (ih hret)

theorem clear_ret_mem {d : DOM} {b : Bounds} {h : Nat}
    (hret : (clear d b).2 = some h) :
    h ∈ d.childrenOf b.parentElement := by
  cases hf : b.firstNode with
  | none => rw [clear, hf] at hret; exact absurd hret (by simp)
  | some f =>
    rw [clear, hf] at hret
    cases hl : b.lastNode with
    | none =>
      simp only [hl] at hret
      exact absurd hret (by simp)
    | some l =>
      simp only [hl] at hret
      have hmem := walkClear_ret_mem hret
      exact (List.dropWhile_sublist _).subset hmem

theorem childrenOf_removeAllFrom_subset {e e' : Nat} (ns : List Nat) :
    ∀ d : DOM, ∀ x ∈ (removeAllFrom d e ns).childrenOf e',
      x ∈ d.childrenOf e' := by
  induction ns with
  | nil => intro d x hx; exact hx
  | cons a as ih =>
    intro d x hx
    exact childrenOf_removeChild_subset x
      (ih (d.removeChild e a) x hx)

theorem childrenOf_clear_subset {d : DOM} {b : Bounds} {e : Nat} :
    ∀ x ∈ (clear d b).1.childrenOf e, x ∈ d.childrenOf e := by
  intro x hx
  cases hf : b.firstNode with
  | none => rw [clear, hf] at hx; exact hx
  | some f =>
    rw [clear, hf] at hx
    exact childrenOf_removeAllFrom_subset _ d x hx

theorem exists_elem_of_mem_childrenOf {d : DOM} {e x : Nat}
    (h : x ∈ d.childrenOf e) : ∃ pr ∈ d.elems, x ∈ pr.2 := by
  unfold DOM.childrenOf at h
  cases hl : d.elems.lookup e with
  | none => rw [hl] at h; simp at h
  | some v =>
    rw [hl] at h
    exact ⟨(e, v), mem_of_lookup_eq_some hl, h⟩

theorem childrenOf_not_mem_of_elems_fresh {d : DOM} {e i : Nat}
    (h : ∀ pr ∈ d.elems, i ∉ pr.2) : i ∉ d.childrenOf e := by
  intro hmem
  obtain ⟨pr, hpr, hx⟩ := exists_elem_of_mem_childrenOf hmem
  exact h pr hpr hx

theorem mem_elems_insertBefore {d : DOM} {e n : Nat} {ref : Option Nat}
    {pr' : Nat × List Nat} (h : pr' ∈ (d.insertBefore e n ref).elems)
    {x : Nat} (hx : x ∈ pr'.2) :
    x = n ∨ ∃ pr ∈ d.elems, x ∈ pr.2 := by
  simp only [DOM.insertBefore, DOM.setChildren, List.mem_map] at h
  obtain ⟨q, hq, hqe⟩ := h
  simp only [DOM.removeEverywhere, List.mem_map] at hq
  obtain ⟨q0, hq0, hq0e⟩ := hq
  by_cases hqq : q.1 = e
  · rw [if_pos hqq] at hqe
    rw [← hqe] at hx
    rcases mem_insBefore hx with hmem | rfl
    · rw [childrenOf_removeEverywhere] at hmem
      exact Or.inr (exists_elem_of_mem_childrenOf
        (List.erase_subset _ _ hmem))
    · exact Or.inl rfl
  · rw [if_neg hqq] at hqe
    rw [← hqe] at hx
    rw [← hq0e] at hx
    exact Or.inr ⟨q0, hq0, List.erase_subset _ _ hx⟩

theorem foldl_insertBefore_none {p : Nat} (ids : List Nat) :
    ∀ d : DOM, d.hasElem p →
      (∀ pr ∈ d.elems, ∀ x ∈ pr.2, x ∉ ids) → ids.Nodup →
      (ids.foldl (fun (acc : DOM) n => acc.insertBefore p n none) d).childrenOf p
        = d.childrenOf p ++ ids := by
  induction ids with
  | nil => intro d _ _ _; simp
  | cons i rest ih =>
    intro d hp hfr hnd
    have hifresh : ∀ pr ∈ d.elems, i ∉ pr.2 :=
      fun pr hpr hmem => hfr pr hpr i hmem (List.mem_cons_self _ _)
    have hstep : (d.insertBefore p i none).childrenOf p
        = d.childrenOf p ++ [i] := by
      rw [childrenOf_insertBefore hp (by simp)]
      rw [List.erase_of_not_mem (childrenOf_not_mem_of_elems_fresh hifresh)]
      rfl
    rw [List.foldl_cons]
    rw [ih (d.insertBefore p i none) (hasElem_insertBefore.mpr hp) ?_ ?_]
    · rw [hstep]
      simp [List.append_assoc]
    · intro pr' hpr' x hx hxrest
      rcases mem_elems_insertBefore hpr' hx with rfl | ⟨pr, hpr, hxpr⟩
      · exact (List.nodup_cons.mp hnd).1 hxrest
      · exact hfr pr hpr x hxpr (List.mem_cons_of_mem _ hxrest)
    · exact (List.nodup_cons.mp hnd).2

theorem foldl_insertBefore_anchor {p a : Nat} (ids : List Nat) :
    ∀ (d : DOM) (front back : List Nat), d.hasElem p →
      d.childrenOf p = front ++ a :: back →
      a ∉ front →
      (∀ pr ∈ d.elems, ∀ x ∈ pr.2, x ∉ ids) → ids.Nodup →
      (ids.foldl (fun (acc : DOM) n => acc.insertBefore p n (some a)) d).childrenOf p
        = front ++ ids ++ a :: back := by
  induction ids with
  | nil => intro d front back _ hcs _ _ _; simpa using hcs
  | cons i rest ih =>
    intro d front back hp hcs ha hfr hnd
    have hifresh : ∀ pr ∈ d.elems, i ∉ pr.2 :=
      fun pr hpr hmem => hfr pr hpr i hmem (List.mem_cons_self _ _)
    have hai : a ≠ i := by
      intro he
      apply childrenOf_not_mem_of_elems_fresh hifresh (e := p)
      rw [hcs, ← he]
      exact List.mem_append.mpr (Or.inr (List.mem_cons_self _ _))
    have hstep : (d.insertBefore p i (some a)).childrenOf p
        = (front ++ [i]) ++ a :: back := by
      rw [childrenOf_insertBefore hp
        (fun hcon => hai (Option.some.inj hcon))]
      rw [List.erase_of_not_mem (childrenOf_not_mem_of_elems_fresh hifresh)]
      rw [hcs]
      simp only [DOM.insBefore]
      rw [takeWhile_ne_append _ ha, dropWhile_ne_append _ ha]
      simp [List.append_assoc]
    rw [List.foldl_cons]
    rw [ih (d.insertBefore p i (some a)) (front ++ [i]) back
      (hasElem_insertBefore.mpr hp) hstep ?_ ?_ ?_]
    · simp [List.append_assoc]
    · intro hmem
      rcases List.mem_append.mp hmem with h1 | h2
      · exact ha h1
      · exact hai (by simpa using h2)
    · intro pr' hpr' x hx hxrest
      rcases mem_elems_insertBefore hpr' hx with rfl | ⟨pr, hpr, hxpr⟩
      · exact (List.nodup_cons.mp hnd).1 hxrest
      · exact hfr pr hpr x hxpr (List.mem_cons_of_mem _ hxrest)
    · exact (List.nodup_cons.mp hnd).2

theorem mem_elems_foldl_insertBefore {p : Nat} {ref : Option Nat}
    (ids : List Nat) :
    ∀ (d : DOM) (pr' : Nat × List Nat),
      pr' ∈ (ids.foldl (fun (acc : DOM) n => acc.insertBefore p n ref) d).elems →
      ∀ x ∈ pr'.2, x ∈ ids ∨ ∃ pr ∈ d.elems, x ∈ pr.2 := by
  induction ids with
  | nil => intro d pr' h x hx; exact Or.inr ⟨pr', h, hx⟩
  | cons i rest ih =>
    intro d pr' h x hx
    rw [List.foldl_cons] at h
    rcases ih _ pr' h x hx with hmem | ⟨pr, hpr, hxpr⟩
    · exact Or.inl (List.mem_cons_of_mem _ hmem)
    · rcases mem_elems_insertBefore hpr hxpr with rfl | ⟨pr0, hpr0, hxpr0⟩
      · exact Or.inl (List.mem_cons_self _ _)
      · exact Or.inr ⟨pr0, hpr0, hxpr0⟩

theorem hasElem_foldl_insertBefore {p e : Nat} {ref : Option Nat}
    (ids : List Nat) :
    ∀ d : DOM, d.hasElem e →
      (ids.foldl (fun (acc : DOM) n => acc.insertBefore p n ref) d).hasElem e := by
  induction ids with
  | nil => intro d h; exact h
  | cons i rest ih =>
    intro d h
    rw [List.foldl_cons]
    exact ih _ (hasElem_insertBefore.mpr h)

theorem nextId_foldl_insertBefore {p : Nat} {ref : Option Nat}
    (ids : List Nat) :
    ∀ d : DOM,
      (ids.foldl (fun (acc : DOM) n => acc.insertBefore p n ref) d).nextId
        = d.nextId := by
  induction ids with
  | nil => intro d; rfl
  | cons i rest ih =>
    intro d
    rw [List.foldl_cons, ih]
    rfl

theorem mem_rangeMap {k n x : Nat} :
    x ∈ (List.range n).map (k + ·) ↔ k ≤ x ∧ x < k + n := by
  simp only [List.mem_map, List.mem_range]
  constructor
  · rintro ⟨j, hj, rfl⟩
    omega
  · intro ⟨h1, h2⟩
    exact ⟨x - k, by omega, by omega⟩

theorem nodup_rangeMap {k n : Nat} : ((List.range n).map (k + ·)).Nodup :=
  List.Nodup.map (fun a b h => by omega) (List.nodup_range n)

theorem rangeMap_head? {k n : Nat} (h : 0 < n) :
    ((List.range n).map (k + ·)).head? = some k := by
  cases n with
  | zero => omega
  | succ m =>
    rw [List.range_succ_eq_map]
    simp

theorem rangeMap_ne_nil {k n : Nat} (h : 0 < n) :
    (List.range n).map (k + ·) ≠ [] := by
  cases n with
  | zero => omega
  | succ m => simp [List.range_succ_eq_map]

/-! Claim theorems. -/

/-- Claim C1: for every well-formed `Bounds` over the N sibling nodes `ns`
(parent's children decompose as `pre ++ ns ++ post`), `clear` removes
exactly the nodes of `ns`, leaves the parent with M - N children, and
returns the node that was `lastNode().nextSibling` before clearing
(`none` if there was none). -/
theorem C1_clear_spec (d : DOM) (p : Nat) (pre ns post : List Nat)
    (l : Nat) (b : Bounds)
    (hp : d.hasElem p)
    (hcs : d.childrenOf p = pre ++ ns ++ post)
    (hnd : (pre ++ ns ++ post).Nodup)
    (hl : ns.getLast? = some l)
    (hpl : d.parentOf l = some p)
    (hb : b = ConcreteBounds p ns.head? (some l)) :
    (clear d b).1.childrenOf p = pre ++ post
    ∧ ((clear d b).1.childrenOf p).length
        = (d.childrenOf p).length - ns.length
    ∧ (∀ x ∈ ns, x ∉ (clear d b).1.childrenOf p)
    ∧ (clear d b).2 = d.nextSibling l
    ∧ (clear d b).2 = post.head? := by
  subst hb
  have hne : ns ≠ [] := by
    intro h
    rw [h] at hl
    simp at hl
  have hmain := clear_layout hp hcs hnd hne rfl rfl
    (show (ConcreteBounds p ns.head? (some l)).last = ns.getLast? from hl.symm)
  have hns := nextSibling_layout hcs hnd hl hpl
  have hd1 := List.nodup_append.mp hnd
  have hd2 := List.nodup_append.mp hd1.1
  refine ⟨hmain.1, ?_, ?_, ?_, hmain.2⟩
  · rw [hmain.1, hcs]
    have hlen : 1 ≤ ns.length := by
      cases ns with
      | nil => exact absurd rfl hne
      | cons a as => simp
    simp only [List.length_append]
    omega
  · intro x hx
    rw [hmain.1]
    intro hmem
    rcases List.mem_append.mp hmem with hpre | hpost
    · exact hd2.2.2 hpre hx
    · exact hd1.2.2 (List.mem_append.mpr (Or.inr hx)) hpost
  · rw [hmain.2, hns]

/-- Claim C1 witness: `clear` on the bounds spanning nodes 2..3 of a parent
with children 1..5 removes exactly those two, leaves three children, and
returns node 4. -/
theorem C1_clear_spec_witness :
    (clear ⟨[(0, [1, 2, 3, 4, 5])], [], 10⟩
        (ConcreteBounds 0 (some 2) (some 3))).1.childrenOf 0 = [1] ++ [4, 5]
    ∧ ((clear ⟨[(0, [1, 2, 3, 4, 5])], [], 10⟩
        (ConcreteBounds 0 (some 2) (some 3))).1.childrenOf 0).length
        = ((⟨[(0, [1, 2, 3, 4, 5])], [], 10⟩ : DOM).childrenOf 0).length
            - [2, 3].length
    ∧ (∀ x ∈ [2, 3], x ∉ (clear ⟨[(0, [1, 2, 3, 4, 5])], [], 10⟩
        (ConcreteBounds 0 (some 2) (some 3))).1.childrenOf 0)
    ∧ (clear ⟨[(0, [1, 2, 3, 4, 5])], [], 10⟩
        (ConcreteBounds 0 (some 2) (some 3))).2
        = (⟨[(0, [1, 2, 3, 4, 5])], [], 10⟩ : DOM).nextSibling 3
    ∧ (clear ⟨[(0, [1, 2, 3, 4, 5])], [], 10⟩
        (ConcreteBounds 0 (some 2) (some 3))).2 = [4, 5].head? :=
  C1_clear_spec ⟨[(0, [1, 2, 3, 4, 5])], [], 10⟩ 0 [1] [2, 3] [4, 5] 3 _
    (by decide) (by decide) (by decide) (by decide) (by decide) rfl

/-- Claim C2 counterexample: on a malformed bounds (lastNode 9 is never
encountered walking sibling links from firstNode 2), `clear` silently
removes nodes 2, 3, 4, 5 and terminates normally returning `none`; there is
no assertion failure and the partial clear is silent. -/
theorem C2_counterexample :
    clear ⟨[(0, [1, 2, 3, 4, 5])], [], 10⟩ (ConcreteBounds 0 (some 2) (some 9))
      = (⟨[(0, [1])], [], 10⟩, none) := by decide

/-- Claim C2 (amended): for a malformed bounds whose `lastNode` is never
encountered while walking `nextSibling` links from `firstNode`, `clear`
does not fail: it silently removes every sibling from `firstNode` through
the end of the parent and returns `none`, terminating normally. -/
theorem C2_clear_malformed (d : DOM) (p : Nat) (pre suffix : List Nat)
    (f l : Nat) (b : Bounds)
    (hp : d.hasElem p)
    (hcs : d.childrenOf p = pre ++ suffix)
    (hnd : (pre ++ suffix).Nodup)
    (hhead : suffix.head? = some f)
    (hl : l ∉ suffix)
    (hb : b = ConcreteBounds p (some f) (some l)) :
    (clear d b).1.childrenOf p = pre ∧ (clear d b).2 = none := by
  subst hb
  obtain ⟨rest, rfl⟩ : ∃ rest, suffix = f :: rest := by
    cases suffix with
    | nil => simp at hhead
    | cons f0 rest =>
      have hf : f0 = f := by simpa using hhead
      exact ⟨rest, by rw [hf]⟩
  · have hf_pre : f ∉ pre := fun hmem =>
      (List.nodup_append.mp hnd).2.2 hmem (List.mem_cons_self _ _)
    have hsuffix : (d.childrenOf p).dropWhile (· ≠ f) = f :: rest := by
      rw [hcs]
      exact dropWhile_ne_append _ hf_pre
    have hwalk := walkClear_not_mem hl
    simp only [clear, Bounds.firstNode, Bounds.lastNode, Bounds.parentElement,
      ConcreteBounds, hsuffix, hwalk]
    constructor
    · rw [childrenOf_removeAllFrom _ _ hp, hcs]
      have he0 : pre ++ f :: rest = pre ++ (f :: rest) ++ [] := by simp
      rw [he0] at hnd ⊢
      have he1 := @foldl_erase_layout (f :: rest) pre [] hnd
      simpa using he1
    · trivial

/-- Claim C2 witness (for the amended claim): the malformed bounds with
firstNode 2 and unreachable lastNode 9 silently clears through the end. -/
theorem C2_clear_malformed_witness :
    (clear ⟨[(0, [1, 2, 3, 4, 5])], [], 10⟩
        (ConcreteBounds 0 (some 2) (some 9))).1.childrenOf 0 = [1]
    ∧ (clear ⟨[(0, [1, 2, 3, 4, 5])], [], 10⟩
        (ConcreteBounds 0 (some 2) (some 9))).2 = none :=
  C2_clear_malformed ⟨[(0, [1, 2, 3, 4, 5])], [], 10⟩ 0 [1] [2, 3, 4, 5] 2 9 _
    (by decide) (by decide) (by decide) (by decide) (by decide) rfl

/-- Claim C8: for every well-formed `Bounds` (spanning the block `ns` of the
parent's children `pre ++ ns ++ post`), `clearWithComment` removes all of
the bounds' nodes, inserts one fresh comment node at the vacated position
(immediately before what was `lastNode().nextSibling`, or at the parent's
end), and returns a single-node `Bounds` whose `firstNode()` and
`lastNode()` both equal that comment and whose `parentElement()` equals
the original bounds' parent. -/
theorem C8_clearWithComment_spec (d : DOM) (p : Nat)
    (pre ns post : List Nat) (b : Bounds)
    (hp : d.hasElem p) (hfr : d.Fresh)
    (hcs : d.childrenOf p = pre ++ ns ++ post)
    (hnd : (pre ++ ns ++ post).Nodup)
    (hne : ns ≠ [])
    (hb : b = ConcreteBounds p ns.head? ns.getLast?) :
    (clearWithComment d b).1.childrenOf p = pre ++ d.nextId :: post
    ∧ (∀ x ∈ ns, x ∉ (clearWithComment d b).1.childrenOf p)
    ∧ d.nextId ∈ (clearWithComment d b).1.comments
    ∧ (clearWithComment d b).2
        = ConcreteBounds p (some d.nextId) (some d.nextId)
    ∧ ((clearWithComment d b).2).parentElement = b.parentElement
    ∧ ((clearWithComment d b).2).firstNode = some d.nextId
    ∧ ((clearWithComment d b).2).lastNode = some d.nextId := by
  subst hb
  have hmain := clear_layout (b := ConcreteBounds p ns.head? ns.getLast?)
    hp hcs hnd hne rfl rfl rfl
  have hd1 := List.nodup_append.mp hnd
  have hd2 := List.nodup_append.mp hd1.1
  have horigLt : ∀ x ∈ pre ++ ns ++ post, x < d.nextId := by
    intro x hx
    exact childrenOf_lt_of_fresh hfr p x (hcs ▸ hx)
  simp only [clearWithComment]
  have hpe : (ConcreteBounds p ns.head? ns.getLast?).parentElement = p := rfl
  rw [hpe]
  set A := clear d (ConcreteBounds p ns.head? ns.getLast?) with hA
  have hAp : A.1.hasElem p := hasElem_clear.mpr hp
  have hC2 : (A.1.createComment).2 = d.nextId := by
    rw [createComment_snd, hA, nextId_clear]
  have hhne : A.2 ≠ some (A.1.createComment).2 := by
    rw [hmain.2, hC2]
    intro hcontra
    cases hpost : post.head? with
    | none => rw [hpost] at hcontra; exact Option.noConfusion hcontra
    | some h =>
      rw [hpost] at hcontra
      have hmem : h ∈ post := head?_mem hpost
      have hlt : h < d.nextId := horigLt h
        (List.mem_append.mpr (Or.inr hmem))
      rw [Option.some.injEq] at hcontra
      omega
  have hcp : (A.1.createComment).1.hasElem p := hasElem_createComment.mpr hAp
  have hchildren :
      ((A.1.createComment).1.insertBefore p (A.1.createComment).2
        A.2).childrenOf p = pre ++ d.nextId :: post := by
    rw [childrenOf_insertBefore hcp hhne]
    · rw [childrenOf_createComment, hmain.1, hC2, hmain.2]
      rw [List.erase_of_not_mem]
      · exact insBefore_head (fun h hh hmem =>
          hd1.2.2 (List.mem_append.mpr (Or.inl hmem)) (head?_mem hh))
      · intro hmem
        have : d.nextId < d.nextId := horigLt d.nextId (by
          rcases List.mem_append.mp hmem with h1 | h2
          · exact List.mem_append.mpr (Or.inl (List.mem_append.mpr (Or.inl h1)))
          · exact List.mem_append.mpr (Or.inr h2))
        omega
  refine ⟨hchildren, ?_, ?_, ?_, ?_, ?_, ?_⟩
  · intro x hx
    rw [hchildren]
    intro hmem
    have hxlt : x < d.nextId := horigLt x
      (List.mem_append.mpr (Or.inl (List.mem_append.mpr (Or.inr hx))))
    rcases List.mem_append.mp hmem with h1 | h2
    · exact hd2.2.2 h1 hx
    · rcases List.mem_cons.mp h2 with h3 | h4
      · omega
      · exact hd1.2.2 (List.mem_append.mpr (Or.inr hx)) h4
  · rw [comments_insertBefore, comments_createComment, hA, comments_clear,
      nextId_clear]
    exact List.mem_append.mpr (Or.inr (List.mem_cons_self _ _))
  · rw [hC2]
  · rw [hC2]
    rfl
  · rw [hC2]
    rfl
  · rw [hC2]
    rfl

/-- Claim C8 witness: clearing nodes 2..3 of children 1..5 with a comment
yields children 1, 10, 4, 5 where 10 is the fresh comment, and the returned
bounds is the single-node bounds over node 10. -/
theorem C8_clearWithComment_spec_witness :
    (clearWithComment ⟨[(0, [1, 2, 3, 4, 5])], [], 10⟩
        (ConcreteBounds 0 (some 2) (some 3))).1.childrenOf 0
      = [1] ++ 10 :: [4, 5]
    ∧ (∀ x ∈ [2, 3], x ∉ (clearWithComment ⟨[(0, [1, 2, 3, 4, 5])], [], 10⟩
        (ConcreteBounds 0 (some 2) (some 3))).1.childrenOf 0)
    ∧ 10 ∈ (clearWithComment ⟨[(0, [1, 2, 3, 4, 5])], [], 10⟩
        (ConcreteBounds 0 (some 2) (some 3))).1.comments
    ∧ (clearWithComment ⟨[(0, [1, 2, 3, 4, 5])], [], 10⟩
        (ConcreteBounds 0 (some 2) (some 3))).2
        = ConcreteBounds 0 (some 10) (some 10)
    ∧ ((clearWithComment ⟨[(0, [1, 2, 3, 4, 5])], [], 10⟩
        (ConcreteBounds 0 (some 2) (some 3))).2).parentElement
        = (ConcreteBounds 0 (some 2) (some 3)).parentElement
    ∧ ((clearWithComment ⟨[(0, [1, 2, 3, 4, 5])], [], 10⟩
        (ConcreteBounds 0 (some 2) (some 3))).2).firstNode = some 10
    ∧ ((clearWithComment ⟨[(0, [1, 2, 3, 4, 5])], [], 10⟩
        (ConcreteBounds 0 (some 2) (some 3))).2).lastNode = some 10 :=
  C8_clearWithComment_spec ⟨[(0, [1, 2, 3, 4, 5])], [], 10⟩ 0 [1] [2, 3]
    [4, 5] _ (by decide) (by decide) (by decide) (by decide) (by decide) rfl

/-- Claim C3: the relocation loop of `insertBoundsBefore` reads
`current.nextSibling` only after `dom.insertBefore` has already moved
`current`, so at the failing input — children 1 2 3 4 5 6 under parent 0,
bounds spanning nodes 2..3, reference bounds starting at node 5 — the code
moves only node 2, leaves node 3 (the bounds' own lastNode) where it was,
and relocates the unrelated nodes 6 and 5, producing 1 3 4 2 6 5 instead
of the relocation 1 4 2 3 5 6 the claim requires.  The result is stable in
the fuel (the loop terminates), so this is the loop's true output. -/
theorem C3_insertBoundsBefore_bug :
    (insertBoundsBefore 100 ⟨[(0, [1, 2, 3, 4, 5, 6])], [], 10⟩ 0
        (ConcreteBounds 0 (some 2) (some 3))
        (some (ConcreteBounds 0 (some 5) (some 5)))).childrenOf 0
      = [1, 3, 4, 2, 6, 5]
    ∧ (insertBoundsBefore 100 ⟨[(0, [1, 2, 3, 4, 5, 6])], [], 10⟩ 0
        (ConcreteBounds 0 (some 2) (some 3))
        (some (ConcreteBounds 0 (some 5) (some 5)))).childrenOf 0
      ≠ [1, 4, 2, 3, 5, 6]
    ∧ insertBoundsBefore 100 ⟨[(0, [1, 2, 3, 4, 5, 6])], [], 10⟩ 0
        (ConcreteBounds 0 (some 2) (some 3))
        (some (ConcreteBounds 0 (some 5) (some 5)))
      = insertBoundsBefore 5 ⟨[(0, [1, 2, 3, 4, 5, 6])], [], 10⟩ 0
        (ConcreteBounds 0 (some 2) (some 3))
        (some (ConcreteBounds 0 (some 5) (some 5))) := by decide

/-- Claim C10: an `EmptyableMorph` still in its initial `Appending` state
answers `null` for both `firstNode()` and `lastNode()`, so the public
`nextSibling()` — which evaluates `this.lastNode().nextSibling` —
dereferences null and fails (modelled by the outer `none`). -/
theorem C10_appending_nextSibling (d : DOM) (m : EmptyableMorph)
    (h : m.currentOperations = .appending) :
    m.firstNode = none ∧ m.lastNode = none ∧ m.nextSibling d = none := by
  refine ⟨?_, ?_, ?_⟩ <;>
    simp [EmptyableMorph.firstNode, EmptyableMorph.lastNode,
      EmptyableMorph.nextSibling, h, opsFirstNode, opsLastNode]

/-- Claim C10 witness: the freshly constructed morph in `Appending`. -/
theorem C10_appending_nextSibling_witness :
    (⟨0, .appending⟩ : EmptyableMorph).firstNode = none
    ∧ (⟨0, .appending⟩ : EmptyableMorph).lastNode = none
    ∧ (⟨0, .appending⟩ : EmptyableMorph).nextSibling
        ⟨[(0, [1, 2, 3])], [], 10⟩ = none :=
  C10_appending_nextSibling ⟨[(0, [1, 2, 3])], [], 10⟩ ⟨0, .appending⟩ rfl

/-- Claim C9: `lastResult` is cleared (set to `none`) exactly when the
state machine transitions to `Empty` — every `didBecomeEmpty` leaves the
morph in an `Empty` state with `lastResult = none`, and `firstNode()` /
`lastNode()` then fall back to that state's placeholder comment — and it
is reassigned exactly when a fresh evaluation is appended: `appendTemplate`
stores the new result (carrying the evaluated template's identity), and
`updateTemplate` always leaves a result cached (it never clears). -/
theorem C9_lastResult_lifecycle :
    (∀ (d : DOM) (m : TemplateMorph),
      (TemplateMorph.didBecomeEmpty d m).2.lastResult = none
      ∧ ∃ c, (TemplateMorph.didBecomeEmpty d m).2.currentOperations
            = .empty c
          ∧ (TemplateMorph.didBecomeEmpty d m).2.firstNode = some c
          ∧ (TemplateMorph.didBecomeEmpty d m).2.lastNode = some c)
    ∧ (∀ (d : DOM) (m : TemplateMorph) (t : Template) (ns : Option Nat),
      (m.appendTemplate d t ns).2.1.lastResult
        = some (t.evaluate d m.parentNode ns).2
      ∧ ((t.evaluate d m.parentNode ns).2).template = t.id)
    ∧ (∀ (d : DOM) (m : TemplateMorph) (t : Template),
      ((m.updateTemplate d t).2.1.lastResult).isSome) := by
  refine ⟨?_, ?_, ?_⟩
  · intro d m
    refine ⟨rfl, ?_⟩
    cases hops : m.currentOperations with
    | appending =>
      exact ⟨d.nextId, by
        simp [TemplateMorph.didBecomeEmpty, opsDidBecomeEmpty, hops, mkEmpty,
          TemplateMorph.firstNode, TemplateMorph.lastNode, opsFirstNode,
          opsLastNode, DOM.createComment]⟩
    | empty c =>
      exact ⟨c, by
        simp [TemplateMorph.didBecomeEmpty, opsDidBecomeEmpty, hops,
          TemplateMorph.firstNode, TemplateMorph.lastNode, opsFirstNode,
          opsLastNode]⟩
    | hasContent b =>
      exact ⟨(clear d b).1.nextId, by
        simp [TemplateMorph.didBecomeEmpty, opsDidBecomeEmpty, hops, mkEmpty,
          TemplateMorph.firstNode, TemplateMorph.lastNode, opsFirstNode,
          opsLastNode, DOM.createComment]⟩
  · intro d m t ns
    exact ⟨rfl, rfl⟩
  · intro d m t
    cases hlr : m.lastResult with
    | none => simp [TemplateMorph.updateTemplate, hlr,
        TemplateMorph.appendTemplate]
    | some r =>
      by_cases ht : t.id = r.template <;>
        simp [TemplateMorph.updateTemplate, hlr, ht,
          TemplateMorph.appendTemplate]

/-- Claim C6: for a `TemplateMorph` holding a `lastResult`, two consecutive
`updateTemplate` calls with the same template never call `appendTemplate`
the second time: the second call issues exactly one `rerender()` on the
existing result, leaves the DOM untouched, and performs no state-machine
bounds transition (the morph, including `currentOperations`, is
unchanged). -/
theorem C6_updateTemplate_same (d : DOM) (m : TemplateMorph) (t : Template)
    (r : RenderResult) (hlr : m.lastResult = some r) :
    ((m.updateTemplate d t).2.1.updateTemplate (m.updateTemplate d t).1
        t).2.2 = [EngineCall.rerender t.id]
    ∧ (∀ i, EngineCall.appendTemplate i ∉
        ((m.updateTemplate d t).2.1.updateTemplate (m.updateTemplate d t).1
          t).2.2)
    ∧ ((m.updateTemplate d t).2.1.updateTemplate (m.updateTemplate d t).1
        t).1 = (m.updateTemplate d t).1
    ∧ ((m.updateTemplate d t).2.1.updateTemplate (m.updateTemplate d t).1
        t).2.1 = (m.updateTemplate d t).2.1 := by
  by_cases ht : t.id = r.template
  · refine ⟨?_, ?_, ?_, ?_⟩ <;>
      simp [TemplateMorph.updateTemplate, hlr, ht]
  · refine ⟨?_, ?_, ?_, ?_⟩ <;>
      simp [TemplateMorph.updateTemplate, hlr, ht,
        TemplateMorph.appendTemplate, Template.evaluate]

/-- Claim C6 witness: a morph holding a result for template 100, updated
twice with template 100. -/
theorem C6_updateTemplate_same_witness :
    (((⟨0, .hasContent (ConcreteBounds 0 (some 7) (some 7)),
          some ⟨100, 0, some 7, some 7⟩⟩ : TemplateMorph).updateTemplate
        ⟨[(0, [7])], [], 10⟩ ⟨100, 2⟩).2.1.updateTemplate
        ((⟨0, .hasContent (ConcreteBounds 0 (some 7) (some 7)),
          some ⟨100, 0, some 7, some 7⟩⟩ : TemplateMorph).updateTemplate
        ⟨[(0, [7])], [], 10⟩ ⟨100, 2⟩).1 ⟨100, 2⟩).2.2
      = [EngineCall.rerender (100 : Nat)]
    ∧ (∀ i, EngineCall.appendTemplate i ∉
        (((⟨0, .hasContent (ConcreteBounds 0 (some 7) (some 7)),
          some ⟨100, 0, some 7, some 7⟩⟩ : TemplateMorph).updateTemplate
        ⟨[(0, [7])], [], 10⟩ ⟨100, 2⟩).2.1.updateTemplate
        ((⟨0, .hasContent (ConcreteBounds 0 (some 7) (some 7)),
          some ⟨100, 0, some 7, some 7⟩⟩ : TemplateMorph).updateTemplate
        ⟨[(0, [7])], [], 10⟩ ⟨100, 2⟩).1 ⟨100, 2⟩).2.2)
    ∧ (((⟨0, .hasContent (ConcreteBounds 0 (some 7) (some 7)),
          some ⟨100, 0, some 7, some 7⟩⟩ : TemplateMorph).updateTemplate
        ⟨[(0, [7])], [], 10⟩ ⟨100, 2⟩).2.1.updateTemplate
        ((⟨0, .hasContent (ConcreteBounds 0 (some 7) (some 7)),
          some ⟨100, 0, some 7, some 7⟩⟩ : TemplateMorph).updateTemplate
        ⟨[(0, [7])], [], 10⟩ ⟨100, 2⟩).1 ⟨100, 2⟩).1
      = ((⟨0, .hasContent (ConcreteBounds 0 (some 7) (some 7)),
          some ⟨100, 0, some 7, some 7⟩⟩ : TemplateMorph).updateTemplate
        ⟨[(0, [7])], [], 10⟩ ⟨100, 2⟩).1
    ∧ (((⟨0, .hasContent (ConcreteBounds 0 (some 7) (some 7)),
          some ⟨100, 0, some 7, some 7⟩⟩ : TemplateMorph).updateTemplate
        ⟨[(0, [7])], [], 10⟩ ⟨100, 2⟩).2.1.updateTemplate
        ((⟨0, .hasContent (ConcreteBounds 0 (some 7) (some 7)),
          some ⟨100, 0, some 7, some 7⟩⟩ : TemplateMorph).updateTemplate
        ⟨[(0, [7])], [], 10⟩ ⟨100, 2⟩).1 ⟨100, 2⟩).2.1
      = ((⟨0, .hasContent (ConcreteBounds 0 (some 7) (some 7)),
          some ⟨100, 0, some 7, some 7⟩⟩ : TemplateMorph).updateTemplate
        ⟨[(0, [7])], [], 10⟩ ⟨100, 2⟩).2.1 :=
  C6_updateTemplate_same ⟨[(0, [7])], [], 10⟩
    ⟨0, .hasContent (ConcreteBounds 0 (some 7) (some 7)),
      some ⟨100, 0, some 7, some 7⟩⟩ ⟨100, 2⟩ ⟨100, 0, some 7, some 7⟩ rfl

/-- Claim C4: for an `EmptyableMorph` starting in `Appending` over a parent
whose children are `pre ++ ns ++ post` (with `b1` spanning `ns`), the call
sequence `didInsertContent b1; didBecomeEmpty; didInsertContent b2` leaves
the morph in `HasContent b2`, with no placeholder comment node remaining in
the parent and none of `b1`'s nodes remaining in the parent. -/
theorem C4_roundTrip (d : DOM) (p : Nat) (pre ns post : List Nat)
    (m : EmptyableMorph) (b1 b2 : Bounds)
    (hp : d.hasElem p) (hfr : d.Fresh)
    (hm : m = ⟨p, .appending⟩)
    (hcs : d.childrenOf p = pre ++ ns ++ post)
    (hnd : (pre ++ ns ++ post).Nodup)
    (hne : ns ≠ [])
    (hnc : ∀ x ∈ d.childrenOf p, x ∉ d.comments)
    (hb1 : b1 = ConcreteBounds p ns.head? ns.getLast?) :
    (roundTripSeq d m b1 b2).2.currentOperations = .hasContent b2
    ∧ (roundTripSeq d m b1 b2).2.parentNode = p
    ∧ (roundTripSeq d m b1 b2).1.childrenOf p = pre ++ post
    ∧ (∀ x ∈ ns, x ∉ (roundTripSeq d m b1 b2).1.childrenOf p)
    ∧ (∀ x ∈ (roundTripSeq d m b1 b2).1.childrenOf p,
        x ∉ (roundTripSeq d m b1 b2).1.comments) := by
  subst hm
  subst hb1
  have hd1 := List.nodup_append.mp hnd
  have hd2 := List.nodup_append.mp hd1.1
  have horigLt : ∀ x ∈ pre ++ ns ++ post, x < d.nextId := by
    intro x hx
    exact childrenOf_lt_of_fresh hfr p x (hcs ▸ hx)
  have hseq : roundTripSeq d ⟨p, .appending⟩
      (ConcreteBounds p ns.head? ns.getLast?) b2
      = ((((clear d (ConcreteBounds p ns.head? ns.getLast?)).1.createComment
            ).1.insertBefore p
            ((clear d (ConcreteBounds p ns.head? ns.getLast?)
              ).1.createComment).2
            (clear d (ConcreteBounds p ns.head? ns.getLast?)).2
          ).removeFromParent
          ((clear d (ConcreteBounds p ns.head? ns.getLast?)
            ).1.createComment).2,
         ⟨p, .hasContent b2⟩) := rfl
  rw [hseq]
  set A := clear d (ConcreteBounds p ns.head? ns.getLast?) with hA
  have hmain := clear_layout (b := ConcreteBounds p ns.head? ns.getLast?)
    hp hcs hnd hne rfl rfl rfl
  have hAp : A.1.hasElem p := hasElem_clear.mpr hp
  have hAfr : A.1.Fresh := fresh_clear hfr
  have hAn : A.1.nextId = d.nextId := by rw [hA, nextId_clear]
  have hC2 : (A.1.createComment).2 = d.nextId := by
    rw [createComment_snd, hAn]
  rw [hC2]
  have hhne : A.2 ≠ some d.nextId := by
    rw [hmain.2]
    intro hcontra
    cases hpost : post.head? with
    | none => rw [hpost] at hcontra; exact Option.noConfusion hcontra
    | some h =>
      rw [hpost] at hcontra
      have hlt : h < d.nextId := horigLt h
        (List.mem_append.mpr (Or.inr (head?_mem hpost)))
      rw [Option.some.injEq] at hcontra
      omega
  have hcp : (A.1.createComment).1.hasElem p := hasElem_createComment.mpr hAp
  have hfr2 : ∀ pr ∈ (A.1.createComment).1.elems, d.nextId ∉ pr.2 := by
    intro pr hpr hmem
    have hlt := hAfr pr hpr _ hmem
    rw [hAn] at hlt
    omega
  have hins : ((A.1.createComment).1.insertBefore p d.nextId
      A.2).childrenOf p = pre ++ d.nextId :: post := by
    rw [childrenOf_insertBefore hcp hhne]
    rw [childrenOf_createComment, hmain.1, hmain.2]
    rw [List.erase_of_not_mem]
    · exact insBefore_head (fun h hh hmem =>
        hd1.2.2 (List.mem_append.mpr (Or.inl hmem)) (head?_mem hh))
    · intro hmem
      have : d.nextId < d.nextId := horigLt d.nextId (by
        rcases List.mem_append.mp hmem with h1 | h2
        · exact List.mem_append.mpr (Or.inl (List.mem_append.mpr (Or.inl h1)))
        · exact List.mem_append.mpr (Or.inr h2))
      omega
  have hpar : ((A.1.createComment).1.insertBefore p d.nextId
      A.2).parentOf d.nextId = some p := by
    have hC2' : (A.1.createComment).2 = d.nextId := hC2
    rw [← hC2']
    exact parentOf_insertBefore_self hcp
      (by rw [hC2']; exact hfr2) (by rw [hC2']; exact hhne)
  have hhe3 : ((A.1.createComment).1.insertBefore p d.nextId
      A.2).hasElem p := hasElem_insertBefore.mpr hcp
  have hfinal : (((A.1.createComment).1.insertBefore p d.nextId
      A.2).removeFromParent d.nextId).childrenOf p = pre ++ post := by
    simp only [DOM.removeFromParent, hpar]
    rw [childrenOf_removeChild _ hhe3, hins]
    have hnp : d.nextId ∉ pre := fun hmem => by
      have : d.nextId < d.nextId := horigLt d.nextId
        (List.mem_append.mpr (Or.inl (List.mem_append.mpr (Or.inl hmem))))
      omega
    rw [List.erase_append_right _ hnp, List.erase_cons_head]
  have hcomments : (((A.1.createComment).1.insertBefore p d.nextId
      A.2).removeFromParent d.nextId).comments
      = d.comments ++ [d.nextId] := by
    simp only [DOM.removeFromParent, hpar]
    rw [comments_removeChild, comments_insertBefore, comments_createComment,
      hA, comments_clear, nextId_clear]
  refine ⟨rfl, rfl, hfinal, ?_, ?_⟩
  · intro x hx
    rw [hfinal]
    intro hmem
    rcases List.mem_append.mp hmem with h1 | h2
    · exact hd2.2.2 h1 hx
    · exact hd1.2.2 (List.mem_append.mpr (Or.inr hx)) h2
  · intro x hx
    rw [hcomments]
    rw [hfinal] at hx
    have hxorig : x ∈ pre ++ ns ++ post := by
      rcases List.mem_append.mp hx with h1 | h2
      · exact List.mem_append.mpr (Or.inl (List.mem_append.mpr (Or.inl h1)))
      · exact List.mem_append.mpr (Or.inr h2)
    intro hmem
    rcases List.mem_append.mp hmem with h1 | h2
    · exact hnc x (hcs ▸ hxorig) h1
    · have : x = d.nextId := by simpa using h2
      have hlt := horigLt x hxorig
      omega

/-- Claim C4 witness: parent children 1..5, `b1` over nodes 2..3, `b2` an
arbitrary fresh bounds; after the three calls the morph holds `b2`, the
parent holds 1, 4, 5, and neither the placeholder nor nodes 2, 3 remain. -/
theorem C4_roundTrip_witness :
    (roundTripSeq ⟨[(0, [1, 2, 3, 4, 5])], [], 10⟩ ⟨0, .appending⟩
        (ConcreteBounds 0 (some 2) (some 3))
        (ConcreteBounds 0 (some 8) (some 9))).2.currentOperations
      = .hasContent (ConcreteBounds 0 (some 8) (some 9))
    ∧ (roundTripSeq ⟨[(0, [1, 2, 3, 4, 5])], [], 10⟩ ⟨0, .appending⟩
        (ConcreteBounds 0 (some 2) (some 3))
        (ConcreteBounds 0 (some 8) (some 9))).2.parentNode = 0
    ∧ (roundTripSeq ⟨[(0, [1, 2, 3, 4, 5])], [], 10⟩ ⟨0, .appending⟩
        (ConcreteBounds 0 (some 2) (some 3))
        (ConcreteBounds 0 (some 8) (some 9))).1.childrenOf 0 = [1] ++ [4, 5]
    ∧ (∀ x ∈ [2, 3], x ∉ (roundTripSeq ⟨[(0, [1, 2, 3, 4, 5])], [], 10⟩
        ⟨0, .appending⟩ (ConcreteBounds 0 (some 2) (some 3))
        (ConcreteBounds 0 (some 8) (some 9))).1.childrenOf 0)
    ∧ (∀ x ∈ (roundTripSeq ⟨[(0, [1, 2, 3, 4, 5])], [], 10⟩ ⟨0, .appending⟩
        (ConcreteBounds 0 (some 2) (some 3))
        (ConcreteBounds 0 (some 8) (some 9))).1.childrenOf 0,
        x ∉ (roundTripSeq ⟨[(0, [1, 2, 3, 4, 5])], [], 10⟩ ⟨0, .appending⟩
        (ConcreteBounds 0 (some 2) (some 3))
        (ConcreteBounds 0 (some 8) (some 9))).1.comments) :=
  C4_roundTrip ⟨[(0, [1, 2, 3, 4, 5])], [], 10⟩ 0 [1] [2, 3] [4, 5]
    ⟨0, .appending⟩ _ (ConcreteBounds 0 (some 8) (some 9))
    (by decide) (by decide) rfl (by decide) (by decide) (by decide)
    (by decide) rfl

theorem length_filter_eq_zero {q : Nat → Bool} {l : List Nat}
    (h : ∀ x ∈ l, q x = false) : (l.filter q).length = 0 := by
  rw [List.filter_eq_nil_iff.mpr (fun a ha => by simp [h a ha])]
  rfl

/-- Claim C5: invoking `didBecomeEmpty` twice in a row leaves the morph in
`Empty` with exactly one placeholder comment node among the parent's
children; the second call, made while the morph is in the `Empty` state,
is a no-op (it changes neither the document nor the morph). -/
theorem C5_didBecomeEmpty_twice (d : DOM) (p : Nat) (m : EmptyableMorph)
    (hm : m.parentNode = p)
    (hp : d.hasElem p) (hfr : d.Fresh)
    (hinv : match m.currentOperations with
      | .empty _ => placeholderCount d p = 1
      | _ => ∀ x ∈ d.childrenOf p, x ∉ d.comments) :
    (∃ c, (EmptyableMorph.didBecomeEmpty d m).2.currentOperations = .empty c)
    ∧ EmptyableMorph.didBecomeEmpty (EmptyableMorph.didBecomeEmpty d m).1
        (EmptyableMorph.didBecomeEmpty d m).2
      = EmptyableMorph.didBecomeEmpty d m
    ∧ placeholderCount (EmptyableMorph.didBecomeEmpty d m).1 p = 1 := by
  have hnoop : ∀ (dd : DOM) (mm : EmptyableMorph) (c : Nat),
      mm.currentOperations = .empty c →
      EmptyableMorph.didBecomeEmpty dd mm = (dd, mm) := by
    intro dd mm c hc
    obtain ⟨pn2, ops2⟩ := mm
    have hc' : ops2 = .empty c := hc
    subst hc'
    rfl
  obtain ⟨pn, ops⟩ := m
  have hm' : p = pn := hm.symm
  subst hm'
  cases ops with
  | appending =>
    have hinv' : ∀ x ∈ d.childrenOf p, x ∉ d.comments := hinv
    have e1 : EmptyableMorph.didBecomeEmpty d ⟨p, .appending⟩
        = ((d.createComment).1.insertBefore p d.nextId none,
           ⟨p, .empty d.nextId⟩) := rfl
    refine ⟨⟨d.nextId, by rw [e1]⟩, ?_, ?_⟩
    · rw [e1]
      exact hnoop _ _ d.nextId rfl
    · rw [e1]
      show placeholderCount
        ((d.createComment).1.insertBefore p d.nextId none) p = 1
      unfold placeholderCount
      rw [comments_insertBefore, comments_createComment]
      rw [childrenOf_insertBefore
        ((hasElem_createComment (d := d)).mpr hp) (by simp),
        childrenOf_createComment]
      rw [length_filter_insBefore _
        (contains_eq_true (List.mem_append.mpr
          (Or.inr (List.mem_cons_self _ _))))]
      rw [length_filter_eq_zero]
      intro x hx
      have hx1 : x ∈ d.childrenOf p := List.erase_subset _ _ hx
      apply contains_eq_false
      intro hmem
      rcases List.mem_append.mp hmem with h1 | h2
      · exact hinv' x hx1 h1
      · have hx2 : x = d.nextId := by simpa using h2
        have := childrenOf_lt_of_fresh hfr p x hx1
        omega
  | empty c0 =>
    have hinv' : placeholderCount d p = 1 := hinv
    have e1 : EmptyableMorph.didBecomeEmpty d ⟨p, .empty c0⟩
        = (d, ⟨p, .empty c0⟩) := rfl
    refine ⟨⟨c0, by rw [e1]⟩, ?_, ?_⟩
    · rw [e1]
      exact hnoop _ _ c0 rfl
    · rw [e1]
      exact hinv'
  | hasContent b =>
    have hinv' : ∀ x ∈ d.childrenOf p, x ∉ d.comments := hinv
    have e1 : EmptyableMorph.didBecomeEmpty d ⟨p, .hasContent b⟩
        = (((clear d b).1.createComment).1.insertBefore p
            ((clear d b).1.createComment).2 (clear d b).2,
           ⟨p, .empty ((clear d b).1.createComment).2⟩) := rfl
    set A := clear d b with hA
    have hAp : A.1.hasElem p := hasElem_clear.mpr hp
    have hAn : A.1.nextId = d.nextId := by rw [hA, nextId_clear]
    have hC2 : (A.1.createComment).2 = d.nextId := by
      rw [createComment_snd, hAn]
    have hne : A.2 ≠ some (A.1.createComment).2 := by
      rw [hC2]
      intro hcontra
      cases hret : A.2 with
      | none => rw [hret] at hcontra; exact Option.noConfusion hcontra
      | some h =>
        rw [hret] at hcontra
        have hmem : h ∈ d.childrenOf b.parentElement :=
          clear_ret_mem (hA ▸ hret)
        have hlt := childrenOf_lt_of_fresh hfr b.parentElement h hmem
        rw [Option.some.injEq] at hcontra
        omega
    refine ⟨⟨(A.1.createComment).2, by rw [e1]⟩, ?_, ?_⟩
    · rw [e1]
      exact hnoop _ _ ((A.1.createComment).2) rfl
    · rw [e1]
      show placeholderCount
        ((A.1.createComment).1.insertBefore p ((A.1.createComment).2) A.2)
        p = 1
      unfold placeholderCount
      rw [comments_insertBefore, comments_createComment]
      rw [childrenOf_insertBefore
        ((hasElem_createComment (d := A.1)).mpr hAp) hne,
        childrenOf_createComment]
      rw [length_filter_insBefore _
        (contains_eq_true (List.mem_append.mpr (Or.inr
          (show (A.1.createComment).2 ∈ [A.1.nextId] from
            List.mem_cons_self _ _))))]
      rw [length_filter_eq_zero]
      intro x hx
      have hx1 : x ∈ A.1.childrenOf p := List.erase_subset _ _ hx
      have hx2 : x ∈ d.childrenOf p := childrenOf_clear_subset x (hA ▸ hx1)
      apply contains_eq_false
      intro hmem
      rcases List.mem_append.mp hmem with h1 | h2
      · exact (hA ▸ comments_clear d b ▸ hinv' x hx2) h1
      · have hx3 : x = A.1.nextId := by simpa using h2
        have := childrenOf_lt_of_fresh hfr p x hx2
        rw [hAn] at hx3
        omega

/-- Claim C5 witness: a morph in `HasContent` over nodes 2..3; after two
`didBecomeEmpty` calls exactly one placeholder comment is in the parent and
the second call changed nothing. -/
theorem C5_didBecomeEmpty_twice_witness :
    (∃ c, (EmptyableMorph.didBecomeEmpty ⟨[(0, [1, 2, 3, 4, 5])], [], 10⟩
        ⟨0, .hasContent (ConcreteBounds 0 (some 2) (some 3))⟩
        ).2.currentOperations = .empty c)
    ∧ EmptyableMorph.didBecomeEmpty
        (EmptyableMorph.didBecomeEmpty ⟨[(0, [1, 2, 3, 4, 5])], [], 10⟩
          ⟨0, .hasContent (ConcreteBounds 0 (some 2) (some 3))⟩).1
        (EmptyableMorph.didBecomeEmpty ⟨[(0, [1, 2, 3, 4, 5])], [], 10⟩
          ⟨0, .hasContent (ConcreteBounds 0 (some 2) (some 3))⟩).2
      = EmptyableMorph.didBecomeEmpty ⟨[(0, [1, 2, 3, 4, 5])], [], 10⟩
          ⟨0, .hasContent (ConcreteBounds 0 (some 2) (some 3))⟩
    ∧ placeholderCount
        (EmptyableMorph.didBecomeEmpty ⟨[(0, [1, 2, 3, 4, 5])], [], 10⟩
          ⟨0, .hasContent (ConcreteBounds 0 (some 2) (some 3))⟩).1 0 = 1 :=
  C5_didBecomeEmpty_twice ⟨[(0, [1, 2, 3, 4, 5])], [], 10⟩ 0
    ⟨0, .hasContent (ConcreteBounds 0 (some 2) (some 3))⟩
    rfl (by decide) (by decide) (by decide)

/-- Claim C7: for a `TemplateMorph` (at the start of its lifecycle:
`Appending`, no cached result), `updateTemplate t1` followed by
`updateTemplate t2` with `t2 ≠ t1` removes every node that `t1`'s result
had inserted before inserting `t2`'s: the second call re-anchors at the old
content's first node and performs a fresh `appendTemplate` (visible in the
engine-call trace), whose `didInsertContent` clears the old content, so
afterwards exactly `t2`'s nodes occupy the region. -/
theorem C7_updateTemplate_switch (d : DOM) (p : Nat) (m : TemplateMorph)
    (t1 t2 : Template)
    (hp : d.hasElem p) (hfr : d.Fresh)
    (hnodup : (d.childrenOf p).Nodup)
    (hm : m = ⟨p, .appending, none⟩)
    (h1 : 0 < t1.size) (h2 : 0 < t2.size)
    (hne : t2.id ≠ t1.id) :
    ((m.updateTemplate d t1).2.1.updateTemplate (m.updateTemplate d t1).1
        t2).1.childrenOf p
      = d.childrenOf p
          ++ (List.range t2.size).map ((d.nextId + t1.size) + ·)
    ∧ (∀ x ∈ (List.range t1.size).map (d.nextId + ·),
        x ∉ ((m.updateTemplate d t1).2.1.updateTemplate
          (m.updateTemplate d t1).1 t2).1.childrenOf p)
    ∧ ((m.updateTemplate d t1).2.1.updateTemplate (m.updateTemplate d t1).1
        t2).2.1.currentOperations
      = .hasContent (ConcreteBounds p
          (((List.range t2.size).map ((d.nextId + t1.size) + ·)).head?)
          (((List.range t2.size).map ((d.nextId + t1.size) + ·)).getLast?))
    ∧ ((m.updateTemplate d t1).2.1.updateTemplate (m.updateTemplate d t1).1
        t2).2.2 = [EngineCall.appendTemplate t2.id] := by
  subst hm
  have hD1n : (((List.range t1.size).map (d.nextId + ·)).foldl
      (fun (acc : DOM) n => acc.insertBefore p n none)
      { d with nextId := d.nextId + t1.size }).nextId
      = d.nextId + t1.size := nextId_foldl_insertBefore _ _
  have hlr2 : (⟨p, .hasContent (RenderResult.toBounds
      ⟨t1.id, p, ((List.range t1.size).map (d.nextId + ·)).head?,
        ((List.range t1.size).map (d.nextId + ·)).getLast?⟩),
      some ⟨t1.id, p, ((List.range t1.size).map (d.nextId + ·)).head?,
        ((List.range t1.size).map (d.nextId + ·)).getLast?⟩⟩ :
        TemplateMorph).lastResult
      = some ⟨t1.id, p, ((List.range t1.size).map (d.nextId + ·)).head?,
        ((List.range t1.size).map (d.nextId + ·)).getLast?⟩ := rfl
  have key : ((⟨p, .appending, none⟩ : TemplateMorph).updateTemplate d
      t1).2.1.updateTemplate
      ((⟨p, .appending, none⟩ : TemplateMorph).updateTemplate d t1).1 t2
      = ((clear
            (((List.range t2.size).map
                ((((List.range t1.size).map (d.nextId + ·)).foldl
                  (fun (acc : DOM) n => acc.insertBefore p n none)
                  { d with nextId := d.nextId + t1.size }).nextId + ·)).foldl
              (fun (acc : DOM) n => acc.insertBefore p n
                (((List.range t1.size).map (d.nextId + ·)).head?))
              { (((List.range t1.size).map (d.nextId + ·)).foldl
                  (fun (acc : DOM) n => acc.insertBefore p n none)
                  { d with nextId := d.nextId + t1.size }) with
                nextId := (((List.range t1.size).map (d.nextId + ·)).foldl
                  (fun (acc : DOM) n => acc.insertBefore p n none)
                  { d with nextId := d.nextId + t1.size }).nextId
                    + t2.size })
            (RenderResult.toBounds
              ⟨t1.id, p, ((List.range t1.size).map (d.nextId + ·)).head?,
                ((List.range t1.size).map (d.nextId + ·)).getLast?⟩)).1,
          ⟨p, .hasContent (RenderResult.toBounds
            ⟨t2.id, p,
              (((List.range t2.size).map
                ((((List.range t1.size).map (d.nextId + ·)).foldl
                  (fun (acc : DOM) n => acc.insertBefore p n none)
                  { d with nextId := d.nextId + t1.size }).nextId
                    + ·))).head?,
              (((List.range t2.size).map
                ((((List.range t1.size).map (d.nextId + ·)).foldl
                  (fun (acc : DOM) n => acc.insertBefore p n none)
                  { d with nextId := d.nextId + t1.size }).nextId
                    + ·))).getLast?⟩),
            some ⟨t2.id, p,
              (((List.range t2.size).map
                ((((List.range t1.size).map (d.nextId + ·)).foldl
                  (fun (acc : DOM) n => acc.insertBefore p n none)
                  { d with nextId := d.nextId + t1.size }).nextId
                    + ·))).head?,
              (((List.range t2.size).map
                ((((List.range t1.size).map (d.nextId + ·)).foldl
                  (fun (acc : DOM) n => acc.insertBefore p n none)
                  { d with nextId := d.nextId + t1.size }).nextId
                    + ·))).getLast?⟩⟩,
          [EngineCall.appendTemplate t2.id]) := by
    show TemplateMorph.updateTemplate
      ⟨p, .hasContent (RenderResult.toBounds
          ⟨t1.id, p, ((List.range t1.size).map (d.nextId + ·)).head?,
            ((List.range t1.size).map (d.nextId + ·)).getLast?⟩),
        some ⟨t1.id, p, ((List.range t1.size).map (d.nextId + ·)).head?,
          ((List.range t1.size).map (d.nextId + ·)).getLast?⟩⟩
      (((List.range t1.size).map (d.nextId + ·)).foldl
        (fun (acc : DOM) n => acc.insertBefore p n none)
        { d with nextId := d.nextId + t1.size }) t2 = _
    simp only [TemplateMorph.updateTemplate, hlr2]
    rw [if_neg hne]
    rfl
  rw [key]
  rw [hD1n]
  rw [rangeMap_head? h1]
  obtain ⟨tail1, htail1⟩ :
      ∃ t, (List.range t1.size).map (d.nextId + ·) = d.nextId :: t := by
    cases hcons : (List.range t1.size).map (d.nextId + ·) with
    | nil => exact absurd hcons (rangeMap_ne_nil h1)
    | cons a t =>
      have ha : a = d.nextId := by
        have := rangeMap_head? (k := d.nextId) h1
        rw [hcons] at this
        simpa using this
      exact ⟨t, by rw [ha]⟩
  have hfr1 : ∀ pr ∈ ({ d with nextId := d.nextId + t1.size } : DOM).elems,
      ∀ x ∈ pr.2, x ∉ (List.range t1.size).map (d.nextId + ·) := by
    intro pr hpr x hx hmem
    have hlt := hfr pr hpr x hx
    have := mem_rangeMap.mp hmem
    omega
  have hD1ch : ((((List.range t1.size).map (d.nextId + ·)).foldl
      (fun (acc : DOM) n => acc.insertBefore p n none)
      { d with nextId := d.nextId + t1.size })).childrenOf p
      = d.childrenOf p ++ (List.range t1.size).map (d.nextId + ·) :=
    foldl_insertBefore_none _ _ hp hfr1 nodup_rangeMap
  have hD1p : ((((List.range t1.size).map (d.nextId + ·)).foldl
      (fun (acc : DOM) n => acc.insertBefore p n none)
      { d with nextId := d.nextId + t1.size })).hasElem p :=
    hasElem_foldl_insertBefore _ _ hp
  have hchLt : ∀ x ∈ d.childrenOf p, x < d.nextId :=
    childrenOf_lt_of_fresh hfr p
  have hfr2 : ∀ pr ∈ ({ (((List.range t1.size).map (d.nextId + ·)).foldl
      (fun (acc : DOM) n => acc.insertBefore p n none)
      { d with nextId := d.nextId + t1.size }) with
        nextId := d.nextId + t1.size + t2.size } : DOM).elems,
      ∀ x ∈ pr.2,
        x ∉ (List.range t2.size).map ((d.nextId + t1.size) + ·) := by
    intro pr hpr x hx hmem
    have hge := (mem_rangeMap.mp hmem).1
    rcases mem_elems_foldl_insertBefore _ _ pr hpr x hx with hin | ⟨pr0, hpr0, hx0⟩
    · have := mem_rangeMap.mp hin
      omega
    · have := hfr pr0 hpr0 x hx0
      omega
  have hanch := foldl_insertBefore_anchor
    (a := d.nextId) ((List.range t2.size).map ((d.nextId + t1.size) + ·))
    ({ (((List.range t1.size).map (d.nextId + ·)).foldl
      (fun (acc : DOM) n => acc.insertBefore p n none)
      { d with nextId := d.nextId + t1.size }) with
        nextId := d.nextId + t1.size + t2.size })
    (d.childrenOf p) tail1 hD1p
    (by rw [show ({ (((List.range t1.size).map (d.nextId + ·)).foldl
        (fun (acc : DOM) n => acc.insertBefore p n none)
        { d with nextId := d.nextId + t1.size }) with
          nextId := d.nextId + t1.size + t2.size } : DOM).childrenOf p
        = ((((List.range t1.size).map (d.nextId + ·)).foldl
          (fun (acc : DOM) n => acc.insertBefore p n none)
          { d with nextId := d.nextId + t1.size })).childrenOf p from rfl,
        hD1ch, htail1])
    (fun hmem => by have := hchLt _ hmem; omega)
    hfr2 nodup_rangeMap
  have hnd3 : ((d.childrenOf p
      ++ (List.range t2.size).map ((d.nextId + t1.size) + ·))
      ++ (List.range t1.size).map (d.nextId + ·) ++ []).Nodup := by
    rw [List.append_nil]
    refine List.nodup_append.mpr ⟨List.nodup_append.mpr
      ⟨hnodup, nodup_rangeMap, ?_⟩, nodup_rangeMap, ?_⟩
    · intro x hx1 hx2
      have := hchLt x hx1
      have := (mem_rangeMap.mp hx2).1
      omega
    · intro x hx1 hx2
      have hxlt := (mem_rangeMap.mp hx2).2
      rcases List.mem_append.mp hx1 with h1 | h2
      · have := hchLt x h1
        have := (mem_rangeMap.mp hx2).1
        omega
      · have := (mem_rangeMap.mp h2).1
        omega
  have hcs3 : (((List.range t2.size).map ((d.nextId + t1.size) + ·)).foldl
      (fun (acc : DOM) n => acc.insertBefore p n (some d.nextId))
      { (((List.range t1.size).map (d.nextId + ·)).foldl
        (fun (acc : DOM) n => acc.insertBefore p n none)
        { d with nextId := d.nextId + t1.size }) with
          nextId := d.nextId + t1.size + t2.size }).childrenOf p
      = (d.childrenOf p
          ++ (List.range t2.size).map ((d.nextId + t1.size) + ·))
        ++ (List.range t1.size).map (d.nextId + ·) ++ [] := by
    rw [hanch, htail1]
    simp [List.append_assoc]
  have hp3 : (((List.range t2.size).map ((d.nextId + t1.size) + ·)).foldl
      (fun (acc : DOM) n => acc.insertBefore p n (some d.nextId))
      { (((List.range t1.size).map (d.nextId + ·)).foldl
        (fun (acc : DOM) n => acc.insertBefore p n none)
        { d with nextId := d.nextId + t1.size }) with
          nextId := d.nextId + t1.size + t2.size }).hasElem p :=
    hasElem_foldl_insertBefore _ _ hD1p
  have hclr := clear_layout
    (b := RenderResult.toBounds
      ⟨t1.id, p, some d.nextId,
        ((List.range t1.size).map (d.nextId + ·)).getLast?⟩)
    hp3 hcs3 hnd3 (rangeMap_ne_nil h1) rfl
    ((rangeMap_head? h1).symm) rfl
  refine ⟨?_, ?_, ?_, rfl⟩
  · rw [hclr.1]
    simp
  · intro x hx
    rw [hclr.1]
    intro hmem
    have hx1 := mem_rangeMap.mp hx
    rcases List.mem_append.mp hmem with h1 | h2
    · rcases List.mem_append.mp h1 with ha | hb
      · have := hchLt x ha
        omega
      · have := (mem_rangeMap.mp hb).1
        omega
    · simp at h2
  · rfl

/-- Claim C7 witness: parent with children 1 2, template 100 producing two
nodes then template 200 producing one; afterwards the parent holds 1, 2, 12
(only `t2`'s node 12 in the region) and nodes 10, 11 of `t1` are gone. -/
theorem C7_updateTemplate_switch_witness :
    (((⟨0, .appending, none⟩ : TemplateMorph).updateTemplate
        ⟨[(0, [1, 2])], [], 10⟩ ⟨100, 2⟩).2.1.updateTemplate
        ((⟨0, .appending, none⟩ : TemplateMorph).updateTemplate
        ⟨[(0, [1, 2])], [], 10⟩ ⟨100, 2⟩).1 ⟨200, 1⟩).1.childrenOf 0
      = (⟨[(0, [1, 2])], [], 10⟩ : DOM).childrenOf 0
          ++ (List.range (1 : Nat)).map ((10 + 2) + ·)
    ∧ (∀ x ∈ (List.range (2 : Nat)).map ((10 : Nat) + ·),
        x ∉ (((⟨0, .appending, none⟩ : TemplateMorph).updateTemplate
        ⟨[(0, [1, 2])], [], 10⟩ ⟨100, 2⟩).2.1.updateTemplate
        ((⟨0, .appending, none⟩ : TemplateMorph).updateTemplate
        ⟨[(0, [1, 2])], [], 10⟩ ⟨100, 2⟩).1 ⟨200, 1⟩).1.childrenOf 0)
    ∧ (((⟨0, .appending, none⟩ : TemplateMorph).updateTemplate
        ⟨[(0, [1, 2])], [], 10⟩ ⟨100, 2⟩).2.1.updateTemplate
        ((⟨0, .appending, none⟩ : TemplateMorph).updateTemplate
        ⟨[(0, [1, 2])], [], 10⟩ ⟨100, 2⟩).1 ⟨200, 1⟩).2.1.currentOperations
      = .hasContent (ConcreteBounds 0
          (((List.range (1 : Nat)).map ((10 + 2) + ·)).head?)
          (((List.range (1 : Nat)).map ((10 + 2) + ·)).getLast?))
    ∧ (((⟨0, .appending, none⟩ : TemplateMorph).updateTemplate
        ⟨[(0, [1, 2])], [], 10⟩ ⟨100, 2⟩).2.1.updateTemplate
        ((⟨0, .appending, none⟩ : TemplateMorph).updateTemplate
        ⟨[(0, [1, 2])], [], 10⟩ ⟨100, 2⟩).1 ⟨200, 1⟩).2.2
      = [EngineCall.appendTemplate 200] :=
  C7_updateTemplate_switch ⟨[(0, [1, 2])], [], 10⟩ 0 ⟨0, .appending, none⟩
    ⟨100, 2⟩ ⟨200, 1⟩ (by decide) (by decide) (by decide) rfl
    (by decide) (by decide) (by decide)

end Morph
